import Mathlib

/-!
Verification development for the leadership-assessment deployment backend.

Strings are modelled as lists of natural-number code units (`Str`), bytes as
naturals below 256.  The `EncryptionService` (src backend `utils/encryption.ts`),
the express handlers (`index.ts`) and the token utility (`generateToken.ts`)
are shallowly embedded as executable Lean functions; external library
primitives (Node `Buffer` base64 codecs, AES-GCM, AES-CBC, SHA-256,
`JSON.stringify` / `JSON.parse`) are modelled by concrete executable functions
that keep exactly the structure the source relies on (fixed lengths, xor
keystream for the CTR core of GCM, deterministic digest, canonical JSON
grammar without whitespace, forgiving base64 decoding).
-/

/-- Code-unit strings: a JS string / byte buffer is a list of naturals. -/
abbrev Str := List Nat

/-- All code units of a buffer are bytes (below 256). -/
def allBytes (s : Str) : Prop := ∀ b ∈ s, b < 256

instance (s : Str) : Decidable (allBytes s) := by
  unfold allBytes; infer_instance

/-! ## Forgiving base64 / base64url codec (model of Node `Buffer.from`/`toString`)

Node's base64 decoder accepts both the standard and the URL-safe alphabet in
either mode and silently skips every other character (including `=` and `:`);
the decoded bytes are the packed six-bit groups truncated to whole bytes.
`Buffer.toString("base64url")` emits the URL-safe alphabet without padding. -/

/-- Sextet value of one character under Node's forgiving base64 decoder:
both alphabets are accepted, all other characters are skipped. -/
def b64CharVal (c : Nat) : Option Nat :=
  if 65 ≤ c ∧ c ≤ 90 then some (c - 65)
  else if 97 ≤ c ∧ c ≤ 122 then some (c - 97 + 26)
  else if 48 ≤ c ∧ c ≤ 57 then some (c - 48 + 52)
  else if c = 43 ∨ c = 45 then some 62
  else if c = 47 ∨ c = 95 then some 63
  else none

/-- Character of a sextet in the URL-safe alphabet (`A-Za-z0-9-_`). -/
def sextetChar (n : Nat) : Nat :=
  if n < 26 then 65 + n
  else if n < 52 then 97 + (n - 26)
  else if n < 62 then 48 + (n - 52)
  else if n = 62 then 45
  else 95

/-- Pack a byte list into six-bit groups (big-endian bit order, as base64). -/
def bytesToSextets : Str → Str
  | a :: b :: c :: rest =>
      a / 4 :: ((a % 4) * 16 + b / 16) :: ((b % 16) * 4 + c / 64) :: (c % 64) ::
        bytesToSextets rest
  | [a, b] => [a / 4, (a % 4) * 16 + b / 16, (b % 16) * 4]
  | [a] => [a / 4, (a % 4) * 16]
  | [] => []

/-- Unpack six-bit groups into whole bytes, dropping a trailing partial byte. -/
def sextetsToBytes : Str → Str
  | s1 :: s2 :: s3 :: s4 :: rest =>
      (s1 * 4 + s2 / 16) :: ((s2 % 16) * 16 + s3 / 4) :: ((s3 % 4) * 64 + s4) ::
        sextetsToBytes rest
  | [s1, s2, s3] => [s1 * 4 + s2 / 16, (s2 % 16) * 16 + s3 / 4]
  | [s1, s2] => [s1 * 4 + s2 / 16]
  | [_] => []
  | [] => []

/-- Model of `Buffer.from(s, "base64")` / `Buffer.from(s, "base64url")`:
forgiving decode, invalid characters skipped. -/
def b64decode (s : Str) : Str := sextetsToBytes (s.filterMap b64CharVal)

/-- Model of `buffer.toString("base64url")`: URL-safe alphabet, no padding. -/
def b64urlEncode (bs : Str) : Str := (bytesToSextets bs).map sextetChar

/-! ## JSON value model

Model of the JSON-representable values the service serializes: JS numbers are
restricted to integers (the identifiers and responses the program encrypts are
strings and objects of strings), and strings are code-unit lists. Object
fields keep JS enumeration order. -/

/-- JSON-representable structured value. -/
inductive Json where
  | null : Json
  | bool (b : Bool) : Json
  | num (n : Int) : Json
  | str (s : Str) : Json
  | arr (elems : List Json) : Json
  | obj (fields : List (Str × Json)) : Json

/-- Hex digit character (lowercase), as emitted by JSON escapes. -/
def hexDigitChar (n : Nat) : Nat := if n < 10 then 48 + n else 87 + n

/-- Escape of one string code unit, as `JSON.stringify` emits it. -/
def escapeByte (b : Nat) : Str :=
  if b = 34 then [92, 34]
  else if b = 92 then [92, 92]
  else if b = 8 then [92, 98]
  else if b = 9 then [92, 116]
  else if b = 10 then [92, 110]
  else if b = 12 then [92, 102]
  else if b = 13 then [92, 114]
  else if b < 32 then [92, 117, 48, 48, hexDigitChar (b / 16), hexDigitChar (b % 16)]
  else [b]

/-- Escaped body of a JSON string literal. -/
def escapeStr (s : Str) : Str := (s.map escapeByte).flatten

/-- Quoted JSON string literal. -/
def quoteStr (s : Str) : Str := 34 :: escapeStr s ++ [34]

/-- Decimal digits of a natural number, most significant first. -/
def natDigits (n : Nat) : Str :=
  if _h : n < 10 then [48 + n] else natDigits (n / 10) ++ [48 + n % 10]
termination_by n
decreasing_by exact Nat.div_lt_self (by omega) (by omega)

/-- Decimal rendering of an integer, as `JSON.stringify` prints it. -/
def intStr (m : Int) : Str :=
  if m < 0 then 45 :: natDigits m.natAbs else natDigits m.toNat

mutual

/-- Model of `JSON.stringify` (no replacer): canonical whitespace-free text. -/
def stringifyJson : Json → Str
  | .null => [110, 117, 108, 108]
  | .bool true => [116, 114, 117, 101]
  | .bool false => [102, 97, 108, 115, 101]
  | .num m => intStr m
  | .str s => quoteStr s
  | .arr xs => 91 :: stringifyItems xs ++ [93]
  | .obj fs => 123 :: stringifyFields fs ++ [125]

/-- Comma-separated serializations of array elements. -/
def stringifyItems : List Json → Str
  | [] => []
  | [x] => stringifyJson x
  | x :: y :: rest => stringifyJson x ++ 44 :: stringifyItems (y :: rest)

/-- Comma-separated serializations of object fields. -/
def stringifyFields : List (Str × Json) → Str
  | [] => []
  | [(k, v)] => quoteStr k ++ 58 :: stringifyJson v
  | (k, v) :: p :: rest =>
      quoteStr k ++ 58 :: stringifyJson v ++ 44 :: stringifyFields (p :: rest)

end

/-! ## JSON parser (model of `JSON.parse`)

Recursive-descent parser for the whitespace-free JSON text `JSON.stringify`
emits; fuelled to make the recursion structural.  `decrypt` only ever applies
it to serializer output, where the two models agree with the JS pair. -/

/-- Greedy decimal-digit accumulator. -/
def parseDigitsAcc : Str → Nat → Nat × Str
  | c :: rest, acc =>
      if 48 ≤ c ∧ c ≤ 57 then parseDigitsAcc rest (acc * 10 + (c - 48))
      else (acc, c :: rest)
  | [], acc => (acc, [])

/-- Parse a nonempty run of decimal digits. -/
def parseNat : Str → Option (Nat × Str)
  | c :: rest =>
      if 48 ≤ c ∧ c ≤ 57 then some (parseDigitsAcc rest (c - 48)) else none
  | [] => none

/-- Hexadecimal digit value (either case accepted, as in JSON). -/
def hexVal (c : Nat) : Option Nat :=
  if 48 ≤ c ∧ c ≤ 57 then some (c - 48)
  else if 97 ≤ c ∧ c ≤ 102 then some (c - 87)
  else if 65 ≤ c ∧ c ≤ 70 then some (c - 55)
  else none

/-- Value of a one-character JSON escape (`\u` handled separately). -/
def simpleUnescape (e : Nat) : Option Nat :=
  if e = 34 then some 34
  else if e = 92 then some 92
  else if e = 47 then some 47
  else if e = 98 then some 8
  else if e = 116 then some 9
  else if e = 110 then some 10
  else if e = 102 then some 12
  else if e = 114 then some 13
  else none

/-- Parse the body of a JSON string literal after the opening quote; returns
the decoded code units and the input after the closing quote.  Fuelled (one
unit per consumed escape group) to keep the recursion structural. -/
def parseStringBody : Nat → Str → Option (Str × Str)
  | 0, _ => none
  | _ + 1, [] => none
  | fuel + 1, c :: rest =>
    if c = 34 then some ([], rest)
    else if c = 92 then
      match rest with
      | [] => none
      | e :: rest2 =>
        if e = 117 then
          (hexVal (rest2.getD 0 0)).bind fun a =>
          (hexVal (rest2.getD 1 0)).bind fun b2 =>
          (hexVal (rest2.getD 2 0)).bind fun c2 =>
          (hexVal (rest2.getD 3 0)).bind fun d =>
          (parseStringBody fuel (rest2.drop 4)).map
            (fun p => ((((a * 16 + b2) * 16 + c2) * 16 + d) :: p.1, p.2))
        else
          (simpleUnescape e).bind fun b =>
          (parseStringBody fuel rest2).map (fun p => (b :: p.1, p.2))
    else if 32 ≤ c then (parseStringBody fuel rest).map (fun p => (c :: p.1, p.2))
    else none

/-- Consume an expected literal tail (`ull`, `rue`, `alse`). -/
def dropLit : Str → Str → Option Str
  | [], s => some s
  | l :: ls, c :: s => if c = l then dropLit ls s else none
  | _ :: _, [] => none

mutual

/-- Parse one JSON value (fuelled recursive descent). -/
def parseVal : Nat → Str → Option (Json × Str)
  | 0, _ => none
  | _ + 1, [] => none
  | fuel + 1, c :: rest =>
    if 48 ≤ c ∧ c ≤ 57 then
      (parseNat (c :: rest)).map (fun p => (Json.num (p.1 : Int), p.2))
    else if c = 45 then
      (parseNat rest).map (fun p => (Json.num (-(p.1 : Int)), p.2))
    else if c = 34 then
      (parseStringBody (rest.length + 1) rest).map (fun p => (Json.str p.1, p.2))
    else if c = 91 then
      if rest.head? = some 93 then some (Json.arr [], rest.tail)
      else (parseItems fuel rest).map (fun p => (Json.arr p.1, p.2))
    else if c = 123 then
      if rest.head? = some 125 then some (Json.obj [], rest.tail)
      else (parseFields fuel rest).map (fun p => (Json.obj p.1, p.2))
    else if c = 110 then (dropLit [117, 108, 108] rest).map (fun r => (Json.null, r))
    else if c = 116 then (dropLit [114, 117, 101] rest).map (fun r => (Json.bool true, r))
    else if c = 102 then (dropLit [97, 108, 115, 101] rest).map (fun r => (Json.bool false, r))
    else none

/-- Parse the elements of a nonempty array body up to the closing bracket. -/
def parseItems : Nat → Str → Option (List Json × Str)
  | 0, _ => none
  | fuel + 1, s =>
    match parseVal fuel s with
    | none => none
    | some (v, r) =>
      match r with
      | 44 :: r2 =>
        match parseItems fuel r2 with
        | some (vs, r3) => some (v :: vs, r3)
        | none => none
      | 93 :: r2 => some ([v], r2)
      | _ => none

/-- Parse the fields of a nonempty object body up to the closing brace. -/
def parseFields : Nat → Str → Option (List (Str × Json) × Str)
  | 0, _ => none
  | fuel + 1, s =>
    match s with
    | 34 :: s1 =>
      match parseStringBody (s1.length + 1) s1 with
      | none => none
      | some (k, r1) =>
        match r1 with
        | 58 :: r2 =>
          match parseVal fuel r2 with
          | none => none
          | some (v, r3) =>
            match r3 with
            | 44 :: r4 =>
              match parseFields fuel r4 with
              | some (fs, r5) => some ((k, v) :: fs, r5)
              | none => none
            | 125 :: r4 => some ([(k, v)], r4)
            | _ => none
        | _ => none
    | _ => none

end

/-- Model of `JSON.parse`: succeeds only when the whole input is one value. -/
def parseJson (s : Str) : Option Json :=
  match parseVal (2 * s.length + 2) s with
  | some (v, []) => some v
  | _ => none

mutual

/-- Fuel measure used to prove the parser complete on serializer output. -/
def fuelJ : Json → Nat
  | .arr xs => fuelItems xs + 1
  | .obj fs => fuelFields fs + 1
  | _ => 1

def fuelItems : List Json → Nat
  | [] => 1
  | x :: xs => fuelJ x + fuelItems xs + 1

def fuelFields : List (Str × Json) → Nat
  | [] => 1
  | p :: fs => fuelJ p.2 + fuelFields fs + 1

end

/-! ## Parser completeness on serializer output -/

/-- Rest-input shapes a value may be followed by inside JSON text. -/
def delimOk : Str → Prop
  | [] => True
  | c :: _ => c = 44 ∨ c = 93 ∨ c = 125

/-- Rest-input that does not begin with a decimal digit. -/
def headNotDigit : Str → Prop
  | [] => True
  | c :: _ => ¬(48 ≤ c ∧ c ≤ 57)

/-! ## EncryptionService (shallow embedding of `utils/encryption.ts`)

The AES-256-GCM primitive is modelled concretely: the CTR keystream is a
deterministic byte function of (key, iv, position) and the authentication tag
a deterministic 16-byte digest of (key, iv, ciphertext); ciphertext is
plaintext xor keystream, exactly the structure the envelope logic relies on.
Randomness (`crypto.randomBytes`) is passed in as the `iv`/`salt` arguments. -/

def IV_LENGTH : Nat := 16

def SALT_LENGTH : Nat := 64

def TAG_LENGTH : Nat := 16

def KEY_LENGTH : Nat := 32

/-- Model of the AES-CTR keystream inside GCM: `n` deterministic bytes. -/
def gcmKeystream (key iv : Str) (n : Nat) : Str :=
  (List.range n).map fun i =>
    (key.foldl (fun a b => a * 31 + b) 7 +
      iv.foldl (fun a b => a * 37 + b) 11 + i * 131) % 256

/-- Pointwise xor of two byte strings. -/
def xorBytes (a b : Str) : Str := List.zipWith (fun x y => x ^^^ y) a b

/-- Model of the GCM authentication tag: 16 deterministic bytes of
(key, iv, ciphertext). -/
def gcmTag (key iv ct : Str) : Str :=
  (List.range TAG_LENGTH).map fun i =>
    (key.foldl (fun a b => a * 131 + b) 3 +
      iv.foldl (fun a b => a * 139 + b) 5 +
      ct.foldl (fun a b => a * 149 + b) 9 + i * 151) % 256

inductive CryptoError where
  | keyRequired
  | keyFormat
  | integrity
  | format
deriving DecidableEq

namespace EncryptionService

/-- Constructor of `EncryptionService`: requires a nonempty key string whose
base64 decoding is exactly 32 bytes; returns the decoded key.  The source
throws `Encryption key is required` on a falsy key and an invalid-format
error when the decoded length is not 32 (Node's forgiving base64 decode
itself never throws). -/
def mkKey (encryptionKey : Str) : Except CryptoError Str :=
  if encryptionKey = [] then .error .keyRequired
  else
    let key := b64decode encryptionKey
    if key.length ≠ KEY_LENGTH then .error .keyFormat else .ok key

/-- `encrypt(data)`: serialize, encrypt with a fresh iv, pack
`iv ∥ salt ∥ tag ∥ ciphertext` and render URL-safe. -/
def encrypt (key iv salt : Str) (data : Json) : Str :=
  let jsonString := stringifyJson data
  let encrypted := xorBytes jsonString (gcmKeystream key iv jsonString.length)
  let tag := gcmTag key iv encrypted
  b64urlEncode (iv ++ salt ++ tag ++ encrypted)

/-- `decrypt(encryptedData)`: decode, slice the fixed offsets, verify the
authentication tag, decrypt and re-parse the structured value. -/
def decrypt (key : Str) (encryptedData : Str) : Except CryptoError Json :=
  let buffer := b64decode encryptedData
  let iv := buffer.take IV_LENGTH
  let tag := (buffer.drop (IV_LENGTH + SALT_LENGTH)).take TAG_LENGTH
  let encrypted := buffer.drop (IV_LENGTH + SALT_LENGTH + TAG_LENGTH)
  if tag ≠ gcmTag key iv encrypted then .error .integrity
  else
    match parseJson (xorBytes encrypted (gcmKeystream key iv encrypted.length)) with
    | some v => .ok v
    | none => .error .format

/-- `validateToken(token)`: decryption success as a boolean probe. -/
def validateToken (key : Str) (token : Str) : Bool :=
  match decrypt key token with
  | .ok _ => true
  | .error _ => false

end EncryptionService

mutual

/-- Well-formed JSON value: every string (and key) consists of bytes. -/
def jsonWf : Json → Bool
  | .str s => s.all (fun b => decide (b < 256))
  | .arr xs => jsonWfItems xs
  | .obj fs => jsonWfFields fs
  | _ => true

def jsonWfItems : List Json → Bool
  | [] => true
  | x :: xs => jsonWf x && jsonWfItems xs

def jsonWfFields : List (Str × Json) → Bool
  | [] => true
  | (k, v) :: fs => k.all (fun b => decide (b < 256)) && jsonWf v && jsonWfFields fs

end

/-! ## Blind index (`createLeaderHash` of index.ts)

`createLeaderHash` serializes the decrypted leader object with
`JSON.stringify(leaderData, Object.keys(leaderData).sort())` and hashes the
text.  Per ECMA-262, the sorted key array is a replacer *PropertyList*: at
every nesting level only properties whose names occur in the list are
serialized, in the list's order.  SHA-256 is modelled by a concrete
deterministic digest (`hashModel`); only determinism is used. -/

/-- Lexicographic code-unit comparison — JS default `Array.sort` order. -/
def lexLe : Str → Str → Bool
  | [], _ => true
  | _ :: _, [] => false
  | a :: as, b :: bs => if a < b then true else if b < a then false else lexLe as bs

/-- Propositional form of `lexLe`. -/
def keyLe (a b : Str) : Prop := lexLe a b = true

instance : DecidableRel keyLe := fun a b =>
  inferInstanceAs (Decidable (lexLe a b = true))

theorem lexLe_total (a b : Str) : lexLe a b = true ∨ lexLe b a = true := by
  induction a generalizing b with
  | nil => left; rfl
  | cons x xs ih =>
      cases b with
      | nil => right; rfl
      | cons y ys =>
          by_cases hxy : x < y
          · left; simp [lexLe, hxy]
          · by_cases hyx : y < x
            · right; simp [lexLe, hyx]
            · have hxy2 : x = y := by omega
              subst hxy2
              rcases ih ys with h | h
              · left; simp [lexLe, h]
              · right; simp [lexLe, h]

theorem lexLe_trans (a b c : Str) (h1 : lexLe a b = true) (h2 : lexLe b c = true) :
    lexLe a c = true := by
  induction a generalizing b c with
  | nil => rfl
  | cons x xs ih =>
      cases b with
      | nil => simp [lexLe] at h1
      | cons y ys =>
          cases c with
          | nil => simp [lexLe] at h2
          | cons z zs =>
              simp only [lexLe] at h1 h2 ⊢
              split at h1
              · rename_i hxy
                split at h2
                · rename_i hyz
                  rw [if_pos (by omega)]
                · split at h2
                  · simp at h2
                  · rename_i hzy hyz
                    rw [if_pos (by omega)]
              · split at h1
                · simp at h1
                · rename_i hyx hxy
                  have hxy2 : x = y := by omega
                  subst hxy2
                  split at h2
                  · rename_i hxz
                    rw [if_pos hxz]
                  · split at h2
                    · simp at h2
                    · rename_i hzx hxz
                      have hxz2 : x = z := by omega
                      subst hxz2
                      rw [if_neg (by omega), if_neg (by omega)]
                      exact ih ys zs h1 h2

theorem lexLe_antisymm (a b : Str) (h1 : lexLe a b = true) (h2 : lexLe b a = true) :
    a = b := by
  induction a generalizing b with
  | nil =>
      cases b with
      | nil => rfl
      | cons y ys => simp [lexLe] at h2
  | cons x xs ih =>
      cases b with
      | nil => simp [lexLe] at h1
      | cons y ys =>
          simp only [lexLe] at h1 h2
          split at h1
          · rename_i hxy
            rw [if_neg (by omega), if_pos (by omega)] at h2
            simp at h2
          · split at h1
            · simp at h1
            · rename_i hyx hxy
              have hxy2 : x = y := by omega
              subst hxy2
              rw [if_neg (by omega), if_neg (by omega)] at h2
              rw [ih ys h1 h2]

instance : IsTotal Str keyLe := ⟨fun a b => lexLe_total a b⟩

instance : IsTrans Str keyLe := ⟨fun a b c => lexLe_trans a b c⟩

instance : IsAntisymm Str keyLe := ⟨fun a b => lexLe_antisymm a b⟩

/-- Model of `Object.keys(x).sort()` on a key list. -/
def jsKeysSort (ks : List Str) : List Str := List.insertionSort keyLe ks

/-- Field order by key, used to canonicalize object field lists. -/
def fieldLe (p q : Str × Json) : Prop := keyLe p.1 q.1

instance : DecidableRel fieldLe := fun p q =>
  inferInstanceAs (Decidable (lexLe p.1 q.1 = true))

/-- Sort an object's field list by key. -/
def sortFields (fs : List (Str × Json)) : List (Str × Json) :=
  List.insertionSort fieldLe fs

/-- First-occurrence property lookup — JS property access on our field lists. -/
def lookupKey (k : Str) : List (Str × Json) → Option Json
  | [] => none
  | (k2, v) :: rest => if k2 = k then some v else lookupKey k rest

/-- Drop fields whose key already occurred earlier. -/
def dedupKeysAux (seen : List Str) : List (Str × Json) → List (Str × Json)
  | [] => []
  | (k, v) :: rest =>
      if k ∈ seen then dedupKeysAux seen rest
      else (k, v) :: dedupKeysAux (k :: seen) rest

/-- Keep only the first occurrence of every key. -/
def dedupKeys (fs : List (Str × Json)) : List (Str × Json) := dedupKeysAux [] fs

mutual

/-- Canonical form of a JSON value: object fields deduplicated (first wins,
as JS property semantics) and sorted by key, recursively.  Two values are
the same JS data (same key-value mapping at every level, any key order)
exactly when their canonical forms are equal. -/
def canonJson : Json → Json
  | .obj fs => .obj (sortFields (dedupKeys (canonFields fs)))
  | .arr xs => .arr (canonItems xs)
  | v => v

def canonItems : List Json → List Json
  | [] => []
  | x :: xs => canonJson x :: canonItems xs

def canonFields : List (Str × Json) → List (Str × Json)
  | [] => []
  | (k, v) :: fs => (k, canonJson v) :: canonFields fs

end

mutual

/-- Every object layer of the value has pairwise-distinct keys (true of every
value produced by decrypting JSON, since JS objects cannot carry duplicate
keys). -/
def nodupKeysJ : Json → Bool
  | .obj fs => decide ((fs.map Prod.fst).Nodup) && nodupKeysFields fs
  | .arr xs => nodupKeysItems xs
  | _ => true

def nodupKeysItems : List Json → Bool
  | [] => true
  | x :: xs => nodupKeysJ x && nodupKeysItems xs

def nodupKeysFields : List (Str × Json) → Bool
  | [] => true
  | p :: fs => nodupKeysJ p.2 && nodupKeysFields fs

end

/-- Model of `Object.keys` on the top-level value (empty for non-objects). -/
def objTopKeys : Json → List Str
  | .obj fs => fs.map Prod.fst
  | _ => []

/-- First-occurrence lookup on serialized field lists. -/
def lookupS (k : Str) : List (Str × Str) → Option Str
  | [] => none
  | (k2, s) :: rest => if k2 = k then some s else lookupS k rest

/-- Comma-join of serialized members. -/
def joinComma : List Str → Str
  | [] => []
  | [x] => x
  | x :: y :: rest => x ++ 44 :: joinComma (y :: rest)

/-- Render an object body under a replacer list: for each replacer key (in
list order) that the object carries, emit `"key":value`. -/
def renderFObj (ks : List Str) (sf : List (Str × Str)) : Str :=
  joinComma (ks.filterMap fun k => (lookupS k sf).map fun sv => quoteStr k ++ 58 :: sv)

mutual

/-- Model of `JSON.stringify(value, replacerArray)`: scalar values serialize
as usual, arrays elementwise, and every object (at any depth) keeps only the
properties named in the replacer list, emitted in list order. -/
def stringifyF (ks : List Str) : Json → Str
  | .null => [110, 117, 108, 108]
  | .bool true => [116, 114, 117, 101]
  | .bool false => [102, 97, 108, 115, 101]
  | .num m => intStr m
  | .str s => quoteStr s
  | .arr xs => 91 :: stringifyFItems ks xs ++ [93]
  | .obj fs => 123 :: renderFObj ks (stringifyFFields ks fs) ++ [125]

def stringifyFItems (ks : List Str) : List Json → Str
  | [] => []
  | [x] => stringifyF ks x
  | x :: y :: rest => stringifyF ks x ++ 44 :: stringifyFItems ks (y :: rest)

def stringifyFFields (ks : List Str) : List (Str × Json) → List (Str × Str)
  | [] => []
  | (k, v) :: fs => (k, stringifyF ks v) :: stringifyFFields ks fs

end

/-- Model of `crypto.createHash("sha256").update(s).digest("hex")`: a concrete
deterministic digest; the development relies only on determinism. -/
def hashModel (s : Str) : Str :=
  natDigits (s.foldl (fun a b => (a * 257 + b + 1) % 18446744073709551616) 17)

/-- Shallow embedding of `createLeaderHash` (index.ts): hash of
`JSON.stringify(leaderData, Object.keys(leaderData).sort())`. -/
def createLeaderHash (leaderData : Json) : Str :=
  hashModel (stringifyF (jsKeysSort (objTopKeys leaderData)) leaderData)

/-! ## Persistent store and request handlers (schema + index.ts)

The relational store is modelled as in-memory lists of rows; SQL constraints
(primary/foreign keys, `(assessment_id, question_id)` uniqueness, enum
coercion, numeric casts) are checked explicitly where the code's statements
rely on them.  `CURRENT_TIMESTAMP` and `crypto.randomBytes` are passed in as
arguments. -/

structure AssessmentRow where
  id : Nat
  encryptedLeaderIdentifier : Str
  encryptedRaterIdentifier : Str
  leaderHash : Str
  role : Str
  createdAt : Nat
  updatedAt : Nat
  completedAt : Option Nat
deriving DecidableEq

structure ResponseRow where
  assessmentId : Nat
  questionId : Str
  response : Str
  createdAt : Nat
deriving DecidableEq

structure Db where
  assessments : List AssessmentRow
  responses : List ResponseRow
deriving DecidableEq

inductive DbError where
  | uniqueViolation
  | foreignKeyViolation
  | invalidEnumValue
  | invalidNumericCast
deriving DecidableEq

inductive ApiError where
  | notFound
  | internalError
deriving DecidableEq

/-- Code units of the fixed `open_` naming convention. -/
def openMark : Str := [111, 112, 101, 110, 95]

/-- Model of `response.questionId.startsWith("open_")`. -/
def isOpenQuestion (qid : Str) : Bool := decide (qid.take 5 = openMark)

/-- Outcome of the token-gate middleware. -/
inductive TokenGateResult where
  | reject (status : Nat)
  | accept (payload : Json)

/-- Model of the `validateToken` middleware (index.ts): an absent — or empty,
hence JS-falsy — `token` query parameter is rejected with status 400
(`Missing token parameter`); a decryption failure is rejected with status 401
(`Invalid token`); on success the decrypted payload is handed to the
downstream handler. -/
def validateTokenMw (key : Str) (tokenParam : Option Str) : TokenGateResult :=
  match tokenParam with
  | none => .reject 400
  | some t =>
      if t = [] then .reject 400
      else
        match EncryptionService.decrypt key t with
        | .ok payload => .accept payload
        | .error _ => .reject 401

/-- Insert one response row, enforcing the schema's foreign key to
`assessments` and the `UNIQUE(assessment_id, question_id)` constraint. -/
def insertResponseRow (db : Db) (row : ResponseRow) : Except DbError Db :=
  if db.assessments.all (fun a => decide (a.id ≠ row.assessmentId)) then
    .error .foreignKeyViolation
  else if db.responses.any (fun r =>
      decide (r.assessmentId = row.assessmentId) &&
      decide (r.questionId = row.questionId)) then
    .error .uniqueViolation
  else .ok { db with responses := db.responses ++ [row] }

/-- Model of `UPDATE assessments SET completed_at = CURRENT_TIMESTAMP WHERE
id = $1` (the schema trigger also refreshes `updated_at`). -/
def setCompleted (db : Db) (aid : Nat) (now : Nat) : Db :=
  { db with assessments := db.assessments.map fun a =>
      if a.id = aid then { a with completedAt := some now, updatedAt := now } else a }

/-- Response value as stored by the submit loop: open-ended answers are
encrypted through the Cipher Codec, ratings stored as their plain text. -/
def encodeResponseValue (key iv salt : Str) (qid val : Str) : Str :=
  if isOpenQuestion qid then EncryptionService.encrypt key iv salt (Json.str val)
  else val

/-- One entry of a submit batch, carrying the randomness its encryption would
consume. -/
structure SubmitEntry where
  questionId : Str
  response : Str
  iv : Str
  salt : Str
deriving DecidableEq

/-- The response row the submit loop inserts for one batch entry. -/
def responseRowOf (key : Str) (now : Nat) (aid : Nat) (e : SubmitEntry) : ResponseRow :=
  ⟨aid, e.questionId, encodeResponseValue key e.iv e.salt e.questionId e.response, now⟩

/-- The insert loop of the submit transaction. -/
def insertAllResponses (key : Str) (now : Nat) (aid : Nat) :
    Db → List SubmitEntry → Except DbError Db
  | db, [] => .ok db
  | db, e :: rest =>
      match insertResponseRow db (responseRowOf key now aid e) with
      | .ok db2 => insertAllResponses key now aid db2 rest
      | .error er => .error er

/-- Model of `POST /api/assessment/submit`: inside one transaction, set
`completed_at` and insert one row per entry (open-ended values encrypted);
any error rolls the transaction back and the handler reports failure.
Returns the store after the call and whether the handler responded success. -/
def submitAssessment (key : Str) (now : Nat) (db : Db) (aid : Nat)
    (entries : List SubmitEntry) : Db × Bool :=
  match insertAllResponses key now aid (setCompleted db aid now) entries with
  | .ok db2 => (db2, true)
  | .error _ => (db, false)

/-- Code units of the `DECRYPTION_ERROR` sentinel. -/
def sentinel : Str := [68, 69, 67, 82, 89, 80, 84, 73, 79, 78, 95, 69, 82, 82, 79, 82]

/-- Read-side transform of one stored response: open-ended responses are
decrypted, substituting the sentinel for that response on failure; ratings
pass through as stored. -/
def transformResponse (key : Str) (r : ResponseRow) : Json :=
  if isOpenQuestion r.questionId then
    match EncryptionService.decrypt key r.response with
    | .ok v => v
    | .error _ => Json.str sentinel
  else Json.str r.response

/-- Order responses by `question_id` (`ORDER BY question_id`). -/
def byQuestionId (a b : ResponseRow) : Prop := keyLe a.questionId b.questionId

instance : DecidableRel byQuestionId := fun a b =>
  inferInstanceAs (Decidable (lexLe a.questionId b.questionId = true))

instance : IsTotal ResponseRow byQuestionId :=
  ⟨fun a b => lexLe_total a.questionId b.questionId⟩

instance : IsTrans ResponseRow byQuestionId :=
  ⟨fun a b c => lexLe_trans a.questionId b.questionId c.questionId⟩

/-- The assessment view `GET /api/admin/assessments/:id` responds with. -/
structure AssessmentView where
  row : AssessmentRow
  responses : List (Str × Json)

/-- Model of `GET /api/admin/assessments/:id`: 404 when the id is absent,
otherwise the row plus its responses ordered by question id, open-ended
responses decrypted with the per-response sentinel policy. -/
def getAssessment (key : Str) (db : Db) (aid : Nat) : Except ApiError AssessmentView :=
  match db.assessments.find? (fun a => decide (a.id = aid)) with
  | none => .error .notFound
  | some a =>
      .ok ⟨a, (List.insertionSort byQuestionId
          (db.responses.filter (fun r => decide (r.assessmentId = aid)))).map
            (fun r => (r.questionId, transformResponse key r))⟩

/-- Order assessments newest first (`ORDER BY created_at DESC`). -/
def newestFirst (a b : AssessmentRow) : Prop := b.createdAt ≤ a.createdAt

instance : DecidableRel newestFirst := fun a b =>
  inferInstanceAs (Decidable (b.createdAt ≤ a.createdAt))

instance : IsTotal AssessmentRow newestFirst :=
  ⟨fun a b => Nat.le_total b.createdAt a.createdAt⟩

instance : IsTrans AssessmentRow newestFirst :=
  ⟨fun _ _ _ h1 h2 => Nat.le_trans h2 h1⟩

/-- One row of the admin listing after decryption. -/
structure TransformedAssessment where
  id : Nat
  leaderIdentifier : Json
  raterIdentifier : Json
  leaderHash : Str
  role : Str
  createdAt : Nat
  completedAt : Option Nat
  responses : List (Str × Json)

/-- Identifier pair of one listed row: both decrypts sit in one try/catch in
the source, so if either fails the sentinel is substituted for both. -/
def transformIdentifiers (key : Str) (a : AssessmentRow) : Json × Json :=
  match EncryptionService.decrypt key a.encryptedLeaderIdentifier,
      EncryptionService.decrypt key a.encryptedRaterIdentifier with
  | .ok l, .ok r => (l, r)
  | _, _ => (Json.str sentinel, Json.str sentinel)

/-- Aggregated responses of one assessment in the admin listings. -/
def transformedResponses (key : Str) (db : Db) (aid : Nat) : List (Str × Json) :=
  (db.responses.filter (fun r => decide (r.assessmentId = aid))).map
    (fun r => (r.questionId, transformResponse key r))

/-- Whole-row transform of the admin listings. -/
def transformAssessment (key : Str) (db : Db) (a : AssessmentRow) :
    TransformedAssessment :=
  ⟨a.id, (transformIdentifiers key a).1, (transformIdentifiers key a).2,
    a.leaderHash, a.role, a.createdAt, a.completedAt,
    transformedResponses key db a.id⟩

/-- Model of `GET /api/admin/assessments`: every assessment with aggregated
responses, newest first, identifiers and open responses decrypted with the
sentinel policy.  The call itself never fails. -/
def listAssessments (key : Str) (db : Db) : List TransformedAssessment :=
  (List.insertionSort newestFirst db.assessments).map (transformAssessment key db)

/-- Model of `GET /api/admin/leader-assessments/:leader`: decrypt the leader
token (failure → 500), recompute the blind-index hash, select the rows with
that hash newest first (none → 404) and transform them. -/
def listByLeader (key : Str) (db : Db) (leaderToken : Str) :
    Except ApiError (List TransformedAssessment) :=
  match EncryptionService.decrypt key leaderToken with
  | .error _ => .error .internalError
  | .ok leaderData =>
      if (db.assessments.filter
          (fun a => decide (a.leaderHash = createLeaderHash leaderData))).isEmpty then
        .error .notFound
      else
        .ok ((List.insertionSort newestFirst (db.assessments.filter
          (fun a => decide (a.leaderHash = createLeaderHash leaderData)))).map
            (transformAssessment key db))

/-- The four values of the schema's `assessment_role` enum
(`manager`, `peer`, `self`, `direct_report`). -/
def assessmentRoleValues : List Str :=
  [[109, 97, 110, 97, 103, 101, 114], [112, 101, 101, 114], [115, 101, 108, 102],
   [100, 105, 114, 101, 99, 116, 95, 114, 101, 112, 111, 114, 116]]

/-- Postgres coercion of a string literal to the schema's `assessment_role`
enum: raises `invalid input value for enum` at plan time unless the literal is
one of the declared values. -/
def castToAssessmentRole (s : Str) : Except DbError Str :=
  if s ∈ assessmentRoleValues then .ok s else .error .invalidEnumValue

/-- Code units of the literal `leader` the statistics query compares against. -/
def leaderLit : Str := [108, 101, 97, 100, 101, 114]

/-- Code units of the literal `rater` the statistics query compares against. -/
def raterLit : Str := [114, 97, 116, 101, 114]

/-- Model of `CAST(response AS FLOAT)` on stored text: succeeds only on
(unsigned integer) numeric text, as the rating responses are; raises
`invalid input syntax` on anything else — ciphertext included. -/
def castResponseFloat (s : Str) : Except DbError Nat :=
  if s ≠ [] ∧ s.all (fun c => decide (48 ≤ c ∧ c ≤ 57)) then
    .ok (s.foldl (fun a c => a * 10 + (c - 48)) 0)
  else .error .invalidNumericCast

/-- Payload of the statistics endpoint.  Averages are carried as exact
(sum, count) pairs of naturals instead of floats. -/
structure StatsResult where
  totalAssessments : Nat
  completedAssessments : Nat
  leaderAssessments : Nat
  raterAssessments : Nat
  perQuestion : List (Str × Nat × Nat)

/-- Model of `GET /api/admin/statistics` (index.ts): the first query counts
rows with `role = 'leader'` and `role = 'rater'`; coercing those literals to
the schema's `assessment_role` enum fails at plan time, before any row is
read.  The second query averages `CAST(response AS FLOAT)` over every
response of each question — free-text ciphertext included. -/
def getStatistics (db : Db) : Except DbError StatsResult := do
  let _ ← castToAssessmentRole leaderLit
  let _ ← castToAssessmentRole raterLit
  let total := db.assessments.length
  let completed := (db.assessments.filter (fun a => a.completedAt.isSome)).length
  let leaders := (db.assessments.filter (fun a => decide (a.role = leaderLit))).length
  let raters := (db.assessments.filter (fun a => decide (a.role = raterLit))).length
  let qids := (db.responses.map (fun r => r.questionId)).dedup
  let perQ ← qids.mapM (fun q => do
      let vals ← ((db.responses.filter (fun r => decide (r.questionId = q))).map
        (fun r => r.response)).mapM castResponseFloat
      pure (q, vals.sum, vals.length))
  pure ⟨total, completed, leaders, raters, perQ⟩

/-! ## Token utility (`generateToken.ts`) -/

/-- UTF-8 encoding of one code unit. -/
def utf8CharBytes (c : Nat) : Str :=
  if c < 128 then [c]
  else if c < 2048 then [192 + c / 64, 128 + c % 64]
  else if c < 65536 then [224 + c / 4096, 128 + (c / 64) % 64, 128 + c % 64]
  else [240 + c / 262144, 128 + (c / 4096) % 64, 128 + (c / 64) % 64, 128 + c % 64]

/-- Model of `Buffer.from(s, "utf-8")`. -/
def utf8Bytes (s : Str) : Str := (s.map utf8CharBytes).flatten

/-- Model of `Buffer.from(s, "utf-8").length`. -/
def utf8Len (s : Str) : Nat := (utf8Bytes s).length

inductive TokenError where
  | missingKey
  | invalidKeyLength
deriving DecidableEq

/-- Standard-alphabet base64 character. -/
def sextetCharStd (n : Nat) : Nat :=
  if n < 26 then 65 + n
  else if n < 52 then 97 + (n - 26)
  else if n < 62 then 48 + (n - 52)
  else if n = 62 then 43
  else 47

/-- Model of `buffer.toString("base64")` (standard alphabet, `=` padding). -/
def b64encodeStd (bs : Str) : Str :=
  (bytesToSextets bs).map sextetCharStd ++
    (if bs.length % 3 = 1 then [61, 61]
     else if bs.length % 3 = 2 then [61] else [])

/-- PKCS#7 padding to a whole number of 16-byte blocks. -/
def pkcs7Pad (bs : Str) : Str :=
  bs ++ List.replicate (16 - bs.length % 16) (16 - bs.length % 16)

/-- Model of one AES block encryption (concrete keyed byte mixer). -/
def cbcBlock (key block : Str) : Str :=
  block.map (fun b => (b + key.foldl (fun a x => a * 31 + x) 5) % 256)

/-- Split a byte string into 16-byte blocks. -/
def chunks16 (bs : Str) : List Str :=
  if h : bs = [] then [] else bs.take 16 :: chunks16 (bs.drop 16)
termination_by bs.length
decreasing_by
  have hlen : bs.length ≠ 0 := fun hz => h (List.eq_nil_of_length_eq_zero hz)
  simp only [List.length_drop]
  omega

/-- Model of AES-256-CBC encryption: pad, then chain blocks. -/
def cbcEncrypt (key iv pt : Str) : Str :=
  ((chunks16 (pkcs7Pad pt)).foldl
    (fun (acc : Str × Str) blk =>
      let c := cbcBlock key (xorBytes blk acc.2)
      (acc.1 ++ c, c)) ([], iv)).1

/-- Shallow embedding of `generateToken` (generateToken.ts): AES-256-CBC under
the UTF-8 bytes of `ENCRYPTION_KEY`, output `base64(iv) : base64(ciphertext)`.
`crypto.createCipheriv("aes-256-cbc", key, iv)` requires exactly 32 key bytes
and throws `ERR_CRYPTO_INVALID_KEYLEN` otherwise, before anything is
encrypted; an unset/empty env key throws its own error first. -/
def generateToken (envKey : Str) (iv : Str) (data : Str) : Except TokenError Str :=
  if envKey = [] then .error .missingKey
  else if utf8Len envKey ≠ 32 then .error .invalidKeyLength
  else .ok (b64encodeStd iv ++ 58 ::
    b64encodeStd (cbcEncrypt (utf8Bytes envKey) iv (utf8Bytes data)))

/-- Composition the claim about `generateToken` speaks of: feed its output to
the codec's boolean probe. -/
def genThenValidate (envKey iv data serviceKey : Str) : Except TokenError Bool :=
  (generateToken envKey iv data).map
    (fun t => EncryptionService.validateToken serviceKey t)

/-- Concrete 32-byte service key used by witnesses. -/
def wKey : Str := List.replicate 32 7

/-- Concrete 16-byte IV used by witnesses. -/
def wIv : Str := List.range 16

/-- Concrete 64-byte salt used by witnesses. -/
def wSalt : Str := List.replicate 64 0

/-- Leader identifier `a: "1", b: "2"` in one key order. -/
def wL1 : Json := Json.obj [([97], Json.str [49]), ([98], Json.str [50])]

/-- The same leader identifier in the opposite key order. -/
def wL2 : Json := Json.obj [([98], Json.str [50]), ([97], Json.str [49])]

/-- Assessment row indexed under `wL1`. -/
def wRow1 : AssessmentRow :=
  ⟨1, [], [], createLeaderHash wL1, [112, 101, 101, 114], 10, 10, none⟩

/-- Assessment row indexed under `wL2`. -/
def wRow2 : AssessmentRow :=
  ⟨2, [], [], createLeaderHash wL2, [112, 101, 101, 114], 20, 20, none⟩

/-- Store holding the two witness assessments. -/
def wDb : Db := ⟨[wRow1, wRow2], []⟩

/-- Leader token decrypting to `wL1`. -/
def wToken : Str := EncryptionService.encrypt wKey wIv wSalt wL1

/-- Assessment row whose leader ciphertext is undecryptable while its rater
ciphertext decrypts fine. -/
def wBadRow : AssessmentRow :=
  ⟨3, [], EncryptionService.encrypt wKey wIv wSalt (Json.str [114]), [],
    [112, 101, 101, 114], 0, 0, none⟩

/-- Store holding only `wBadRow`. -/
def wBadDb : Db := ⟨[wBadRow], []⟩

/-- Store with one started assessment (id 1) awaiting submission. -/
def wDbSubmit : Db := ⟨[⟨1, [], [], [], [112, 101, 101, 114], 0, 0, none⟩], []⟩

/-- The spec scenario batch: rating `model_the_way_0` answered `4`, and
open-ended `open_0` answered `Great listener`. -/
def wEntries : List SubmitEntry :=
  [⟨[109, 111, 100, 101, 108, 95, 116, 104, 101, 95, 119, 97, 121, 95, 48],
    [52], wIv, wSalt⟩,
   ⟨[111, 112, 101, 110, 95, 48],
    [71, 114, 101, 97, 116, 32, 108, 105, 115, 116, 101, 110, 101, 114], wIv, wSalt⟩]

theorem sextetsToBytes_bytesToSextets (bs : Str) (h : allBytes bs) :
    sextetsToBytes (bytesToSextets bs) = bs := by
  induction bs using bytesToSextets.induct with
  | case1 a b c rest ih =>
      have ha : a < 256 := h a (by simp)
      have hb : b < 256 := h b (by simp)
      have hc : c < 256 := h c (by simp)
      have hrest : allBytes rest := fun x hx => h x (by simp [hx])
      simp only [bytesToSextets, sextetsToBytes, ih hrest, List.cons.injEq,
        and_true]
      omega
  | case2 a b =>
      have ha : a < 256 := h a (by simp)
      have hb : b < 256 := h b (by simp)
      simp only [bytesToSextets, sextetsToBytes, List.cons.injEq, and_true]
      omega
  | case3 a =>
      have ha : a < 256 := h a (by simp)
      simp only [bytesToSextets, sextetsToBytes, List.cons.injEq, and_true]
      omega
  | case4 => rfl

theorem bytesToSextets_lt (bs : Str) (h : allBytes bs) :
    ∀ x ∈ bytesToSextets bs, x < 64 := by
  induction bs using bytesToSextets.induct with
  | case1 a b c rest ih =>
      have ha : a < 256 := h a (by simp)
      have hb : b < 256 := h b (by simp)
      have hc : c < 256 := h c (by simp)
      have hrest : allBytes rest := fun x hx => h x (by simp [hx])
      intro x hx
      simp only [bytesToSextets, List.mem_cons] at hx
      rcases hx with rfl | rfl | rfl | rfl | hx
      · omega
      · omega
      · omega
      · omega
      · exact ih hrest x hx
  | case2 a b =>
      have ha : a < 256 := h a (by simp)
      have hb : b < 256 := h b (by simp)
      intro x hx
      simp only [bytesToSextets, List.mem_cons] at hx
      rcases hx with rfl | rfl | rfl | hx
      · omega
      · omega
      · omega
      · simp at hx
  | case3 a =>
      have ha : a < 256 := h a (by simp)
      intro x hx
      simp only [bytesToSextets, List.mem_cons] at hx
      rcases hx with rfl | rfl | hx
      · omega
      · omega
      · simp at hx
  | case4 => intro x hx; simp [bytesToSextets] at hx

theorem b64CharVal_sextetChar (n : Nat) (h : n < 64) :
    b64CharVal (sextetChar n) = some n := by
  revert h
  revert n
  decide

theorem filterMap_b64CharVal_map_sextetChar (l : Str) (h : ∀ x ∈ l, x < 64) :
    (l.map sextetChar).filterMap b64CharVal = l := by
  induction l with
  | nil => rfl
  | cons x xs ih =>
      have hx : x < 64 := h x (by simp)
      have hxs : ∀ y ∈ xs, y < 64 := fun y hy => h y (by simp [hy])
      simp only [List.map_cons, List.filterMap_cons, b64CharVal_sextetChar x hx,
        ih hxs]

/-- Decoding an URL-safe-encoded byte buffer recovers the buffer. -/
theorem b64decode_b64urlEncode (bs : Str) (h : allBytes bs) :
    b64decode (b64urlEncode bs) = bs := by
  unfold b64decode b64urlEncode
  rw [filterMap_b64CharVal_map_sextetChar _ (bytesToSextets_lt bs h)]
  exact sextetsToBytes_bytesToSextets bs h

theorem sextetsToBytes_length_le (l : Str) :
    4 * (sextetsToBytes l).length ≤ 3 * l.length := by
  induction l using sextetsToBytes.induct with
  | case1 s1 s2 s3 s4 rest ih => simp only [sextetsToBytes, List.length_cons]; omega
  | case2 s1 s2 s3 => simp [sextetsToBytes]
  | case3 s1 s2 => simp [sextetsToBytes]
  | case4 s1 => simp [sextetsToBytes]
  | case5 => simp [sextetsToBytes]

/-- A string whose forgiving base64 decoding has 32 bytes has at least 43
characters. -/
theorem b64decode_len32_imp_long (s : Str) (h : (b64decode s).length = 32) :
    43 ≤ s.length := by
  unfold b64decode at h
  have h1 := sextetsToBytes_length_le (s.filterMap b64CharVal)
  have h2 : (s.filterMap b64CharVal).length ≤ s.length :=
    List.length_filterMap_le b64CharVal s
  omega

theorem delimOk_headNotDigit (s : Str) (h : delimOk s) : headNotDigit s := by
  cases s with
  | nil => trivial
  | cons c t =>
      simp only [delimOk] at h
      simp only [headNotDigit]
      omega

theorem natDigits_digits (n : Nat) : ∀ c ∈ natDigits n, 48 ≤ c ∧ c ≤ 57 := by
  induction n using Nat.strong_induction_on with
  | _ n ih =>
      rw [natDigits]
      split
      · intro c hc
        simp only [List.mem_singleton] at hc
        omega
      · intro c hc
        rw [List.mem_append] at hc
        rcases hc with hc | hc
        · exact ih (n / 10) (Nat.div_lt_self (by omega) (by omega)) c hc
        · simp only [List.mem_singleton] at hc
          omega

theorem natDigits_ne_nil (n : Nat) : natDigits n ≠ [] := by
  rw [natDigits]
  split
  · simp
  · simp

theorem parseDigitsAcc_append (ds : Str) :
    ∀ acc rest, (∀ c ∈ ds, 48 ≤ c ∧ c ≤ 57) → headNotDigit rest →
      parseDigitsAcc (ds ++ rest) acc =
        (List.foldl (fun a c => a * 10 + (c - 48)) acc ds, rest) := by
  induction ds with
  | nil =>
      intro acc rest _ hrest
      cases rest with
      | nil => rfl
      | cons c t =>
          simp only [headNotDigit] at hrest
          simp only [List.nil_append, List.foldl_nil, parseDigitsAcc]
          rw [if_neg hrest]
  | cons d ds ih =>
      intro acc rest hds hrest
      have hd : 48 ≤ d ∧ d ≤ 57 := hds d (by simp)
      simp only [List.cons_append, parseDigitsAcc, if_pos hd, List.foldl_cons]
      exact ih _ rest (fun c hc => hds c (by simp [hc])) hrest

theorem foldl_digits_natDigits (n : Nat) :
    ∀ acc, List.foldl (fun a c => a * 10 + (c - 48)) acc (natDigits n) =
      acc * 10 ^ (natDigits n).length + n := by
  induction n using Nat.strong_induction_on with
  | _ n ih =>
      intro acc
      rw [natDigits]
      split
      · simp only [List.foldl_cons, List.foldl_nil, List.length_singleton]
        omega
      · rename_i h
        rw [List.foldl_append, List.length_append,
          ih (n / 10) (Nat.div_lt_self (by omega) (by omega))]
        simp only [List.foldl_cons, List.foldl_nil, List.length_singleton]
        have e1 : 48 + n % 10 - 48 = n % 10 := by omega
        rw [pow_succ, e1]
        have e2 : n / 10 * 10 + n % 10 = n := by omega
        calc (acc * 10 ^ (natDigits (n / 10)).length + n / 10) * 10 + n % 10
            = acc * (10 ^ (natDigits (n / 10)).length * 10) +
                (n / 10 * 10 + n % 10) := by ring
          _ = acc * (10 ^ (natDigits (n / 10)).length * 10) + n := by rw [e2]

theorem parseNat_natDigits (n : Nat) (rest : Str) (hrest : headNotDigit rest) :
    parseNat (natDigits n ++ rest) = some (n, rest) := by
  obtain ⟨d, ds, hds⟩ : ∃ d ds, natDigits n = d :: ds := by
    cases h : natDigits n with
    | nil => exact absurd h (natDigits_ne_nil n)
    | cons d ds => exact ⟨d, ds, rfl⟩
  have hdig := natDigits_digits n
  rw [hds] at hdig ⊢
  have hd : 48 ≤ d ∧ d ≤ 57 := hdig d (by simp)
  simp only [List.cons_append, parseNat, if_pos hd]
  rw [parseDigitsAcc_append ds (d - 48) rest (fun c hc => hdig c (by simp [hc])) hrest]
  have hfold := foldl_digits_natDigits n 0
  rw [hds] at hfold
  simp only [List.foldl_cons, Nat.zero_mul, Nat.zero_add] at hfold
  rw [hfold]

theorem hexVal_hexDigitChar (m : Nat) (h : m < 16) :
    hexVal (hexDigitChar m) = some m := by
  revert h
  revert m
  decide

theorem escapeStr_length_ge (s : Str) : s.length ≤ (escapeStr s).length := by
  induction s with
  | nil => simp [escapeStr]
  | cons b t ih =>
      have h1 : 1 ≤ (escapeByte b).length := by
        unfold escapeByte
        repeat' split
        all_goals simp
      simp only [escapeStr, List.map_cons, List.flatten_cons, List.length_append,
        List.length_cons] at *
      omega

theorem parseStringBody_escape (s : Str) :
    ∀ fuel rest, s.length < fuel →
      parseStringBody fuel (escapeStr s ++ 34 :: rest) = some (s, rest) := by
  induction s with
  | nil =>
      intro fuel rest hf
      obtain ⟨f, rfl⟩ : ∃ f, fuel = f + 1 := ⟨fuel - 1, by omega⟩
      simp only [escapeStr, List.map_nil, List.flatten_nil, List.nil_append]
      simp [parseStringBody]
  | cons b t ih =>
      intro fuel rest hf
      obtain ⟨f, rfl⟩ : ∃ f, fuel = f + 1 := ⟨fuel - 1, by omega⟩
      have hft : t.length < f := by
        simp only [List.length_cons] at hf
        omega
      have hstep : escapeStr (b :: t) = escapeByte b ++ escapeStr t := by
        simp [escapeStr]
      rw [hstep, List.append_assoc]
      by_cases h34 : b = 34
      · subst h34
        simp [escapeByte, parseStringBody, simpleUnescape, ih f rest hft]
      · by_cases h92 : b = 92
        · subst h92
          simp [escapeByte, parseStringBody, simpleUnescape, ih f rest hft]
        · by_cases h8 : b = 8
          · subst h8
            simp [escapeByte, parseStringBody, simpleUnescape, ih f rest hft]
          · by_cases h9 : b = 9
            · subst h9
              simp [escapeByte, parseStringBody, simpleUnescape, ih f rest hft]
            · by_cases h10 : b = 10
              · subst h10
                simp [escapeByte, parseStringBody, simpleUnescape, ih f rest hft]
              · by_cases h12 : b = 12
                · subst h12
                  simp [escapeByte, parseStringBody, simpleUnescape, ih f rest hft]
                · by_cases h13 : b = 13
                  · subst h13
                    simp [escapeByte, parseStringBody, simpleUnescape, ih f rest hft]
                  · by_cases hctl : b < 32
                    · have hb : escapeByte b =
                          [92, 117, 48, 48, hexDigitChar (b / 16), hexDigitChar (b % 16)] := by
                        unfold escapeByte
                        rw [if_neg h34, if_neg h92, if_neg h8, if_neg h9,
                          if_neg h10, if_neg h12, if_neg h13, if_pos hctl]
                      rw [hb]
                      simp only [List.cons_append, List.nil_append]
                      have hhi : hexVal (hexDigitChar (b / 16)) = some (b / 16) :=
                        hexVal_hexDigitChar _ (by omega)
                      have hlo : hexVal (hexDigitChar (b % 16)) = some (b % 16) :=
                        hexVal_hexDigitChar _ (by omega)
                      have h48 : hexVal 48 = some 0 := by decide
                      norm_num [parseStringBody, List.getD_cons_zero, List.getD_cons_succ,
                        List.drop_succ_cons, List.drop_zero, h48, hhi, hlo, ih f rest hft]
                      omega
                    · have hb : escapeByte b = [b] := by
                        unfold escapeByte
                        rw [if_neg h34, if_neg h92, if_neg h8, if_neg h9,
                          if_neg h10, if_neg h12, if_neg h13, if_neg hctl]
                      rw [hb, List.singleton_append]
                      simp only [parseStringBody, if_neg h34, if_neg h92,
                        if_pos (by omega : 32 ≤ b), ih f rest hft]
                      rfl

theorem dropLit_self (ls : Str) : ∀ r, dropLit ls (ls ++ r) = some r := by
  induction ls with
  | nil => intro r; rfl
  | cons l ls ih =>
      intro r
      simp [List.cons_append, dropLit, ih r]

theorem intStr_ne_nil (m : Int) : intStr m ≠ [] := by
  unfold intStr
  split
  · simp
  · exact natDigits_ne_nil _

/-- First code unit of any serialized value: never a delimiter and never a
closing bracket, so the parser can distinguish empty containers. -/
theorem stringifyJson_head (v : Json) :
    ∃ c t, stringifyJson v = c :: t ∧ c ≠ 44 ∧ c ≠ 58 ∧ c ≠ 93 ∧ c ≠ 125 := by
  cases v with
  | null => exact ⟨110, _, rfl, by omega, by omega, by omega, by omega⟩
  | bool b =>
      cases b with
      | true => exact ⟨116, _, rfl, by omega, by omega, by omega, by omega⟩
      | false => exact ⟨102, _, rfl, by omega, by omega, by omega, by omega⟩
  | num m =>
      simp only [stringifyJson]
      unfold intStr
      split
      · exact ⟨45, _, rfl, by omega, by omega, by omega, by omega⟩
      · obtain ⟨d, ds, hds⟩ : ∃ d ds, natDigits m.toNat = d :: ds := by
          cases h : natDigits m.toNat with
          | nil => exact absurd h (natDigits_ne_nil _)
          | cons d ds => exact ⟨d, ds, rfl⟩
        have hd : 48 ≤ d ∧ d ≤ 57 := natDigits_digits m.toNat d (by rw [hds]; simp)
        exact ⟨d, ds, hds, by omega, by omega, by omega, by omega⟩
  | str s => exact ⟨34, _, rfl, by omega, by omega, by omega, by omega⟩
  | arr xs =>
      simp only [stringifyJson]
      exact ⟨91, _, rfl, by omega, by omega, by omega, by omega⟩
  | obj fs =>
      simp only [stringifyJson]
      exact ⟨123, _, rfl, by omega, by omega, by omega, by omega⟩

theorem fuelJ_pos (v : Json) : 1 ≤ fuelJ v := by
  cases v <;> simp [fuelJ]

theorem fuelItems_pos (xs : List Json) : 1 ≤ fuelItems xs := by
  cases xs <;> simp [fuelItems]

theorem fuelFields_pos (fs : List (Str × Json)) : 1 ≤ fuelFields fs := by
  cases fs <;> simp [fuelFields]

theorem stringifyItems_cons (x : Json) (xs : List Json) :
    ∃ u, stringifyItems (x :: xs) = stringifyJson x ++ u := by
  cases xs with
  | nil => exact ⟨[], by simp [stringifyItems]⟩
  | cons y ys => exact ⟨44 :: stringifyItems (y :: ys), rfl⟩

theorem stringifyFields_single (k : Str) (v : Json) (r : Str) :
    stringifyFields [(k, v)] ++ r =
      34 :: (escapeStr k ++ 34 :: 58 :: (stringifyJson v ++ r)) := by
  simp [stringifyFields, quoteStr, List.append_assoc]

theorem stringifyFields_two (k : Str) (v : Json) (q : Str × Json)
    (qs : List (Str × Json)) (r : Str) :
    stringifyFields ((k, v) :: q :: qs) ++ r =
      34 :: (escapeStr k ++ 34 :: 58 ::
        (stringifyJson v ++ 44 :: (stringifyFields (q :: qs) ++ r))) := by
  simp [stringifyFields, quoteStr, List.append_assoc]

/-- Completeness of the fuelled parser on serializer output, all three mutual
layers at once, by strong induction on the fuel measure. -/
theorem parse_stringify_all (N : Nat) :
    (∀ v fuel rest, fuelJ v ≤ N → fuelJ v ≤ fuel → delimOk rest →
      parseVal fuel (stringifyJson v ++ rest) = some (v, rest)) ∧
    (∀ xs fuel rest, xs ≠ [] → fuelItems xs ≤ N → fuelItems xs ≤ fuel →
      parseItems fuel (stringifyItems xs ++ 93 :: rest) = some (xs, rest)) ∧
    (∀ fs fuel rest, fs ≠ [] → fuelFields fs ≤ N → fuelFields fs ≤ fuel →
      parseFields fuel (stringifyFields fs ++ 125 :: rest) = some (fs, rest)) := by
  induction N using Nat.strong_induction_on with
  | _ N ih =>
  refine ⟨?_, ?_, ?_⟩
  · intro v fuel rest hN hfuel hrest
    obtain ⟨f, rfl⟩ : ∃ f, fuel = f + 1 :=
      ⟨fuel - 1, by have := fuelJ_pos v; omega⟩
    cases v with
    | null =>
        simp only [stringifyJson, List.cons_append, List.nil_append]
        rw [parseVal]
        norm_num [dropLit]
    | bool b =>
        cases b with
        | true =>
            simp only [stringifyJson, List.cons_append, List.nil_append]
            rw [parseVal]
            norm_num [dropLit]
        | false =>
            simp only [stringifyJson, List.cons_append, List.nil_append]
            rw [parseVal]
            norm_num [dropLit]
    | num m =>
        simp only [stringifyJson]
        have hnd := delimOk_headNotDigit rest hrest
        by_cases hm : m < 0
        · rw [intStr, if_pos hm]
          simp only [List.cons_append]
          rw [parseVal, if_neg (by omega : ¬(48 ≤ 45 ∧ 45 ≤ 57)),
            if_pos (rfl : (45:Nat) = 45), parseNat_natDigits m.natAbs rest hnd]
          have habs : (-(m.natAbs : Int)) = m := by omega
          show some (Json.num (-(m.natAbs : Int)), rest) = some (Json.num m, rest)
          rw [habs]
        · rw [intStr, if_neg hm]
          obtain ⟨d, ds, hds⟩ : ∃ d ds, natDigits m.toNat = d :: ds := by
            cases hh : natDigits m.toNat with
            | nil => exact absurd hh (natDigits_ne_nil _)
            | cons d ds => exact ⟨d, ds, rfl⟩
          have hd : 48 ≤ d ∧ d ≤ 57 := natDigits_digits m.toNat d (by rw [hds]; simp)
          rw [hds, List.cons_append, parseVal, if_pos hd, ← List.cons_append, ← hds,
            parseNat_natDigits m.toNat rest hnd]
          simp [Int.toNat_of_nonneg (by omega : (0:Int) ≤ m)]
    | str s =>
        simp only [stringifyJson, quoteStr, List.cons_append, List.append_assoc,
          List.singleton_append]
        rw [parseVal]
        norm_num
        rw [parseStringBody_escape s _ rest (by have := escapeStr_length_ge s; omega)]
    | arr xs =>
        cases xs with
        | nil =>
            simp only [stringifyJson, stringifyItems, List.nil_append, List.cons_append]
            rw [parseVal]
            norm_num
        | cons x xs' =>
            have hshape : stringifyJson (Json.arr (x :: xs')) ++ rest =
                91 :: (stringifyItems (x :: xs') ++ 93 :: rest) := by
              simp [stringifyJson, List.append_assoc]
            rw [hshape, parseVal]
            obtain ⟨c0, t0, hc0, hc44, hc58, hc93, hc125⟩ := stringifyJson_head x
            obtain ⟨u, hu⟩ := stringifyItems_cons x xs'
            have hne : ¬ (stringifyItems (x :: xs') ++ 93 :: rest).head? = some 93 := by
              rw [hu, hc0]
              simp [hc93]
            have hmeas : fuelJ (Json.arr (x :: xs')) = fuelItems (x :: xs') + 1 := rfl
            have hlt : fuelItems (x :: xs') < N := by omega
            have hle : fuelItems (x :: xs') ≤ f := by omega
            have hitems := ((ih _ hlt).2.1) (x :: xs') f rest (by simp) (le_refl _) hle
            rw [if_neg (by omega : ¬(48 ≤ 91 ∧ 91 ≤ 57)),
              if_neg (by omega : ¬(91:Nat) = 45), if_neg (by omega : ¬(91:Nat) = 34),
              if_pos (rfl : (91:Nat) = 91), if_neg hne, hitems]
            rfl
    | obj fs =>
        cases fs with
        | nil =>
            simp only [stringifyJson, stringifyFields, List.nil_append, List.cons_append]
            rw [parseVal]
            norm_num
        | cons p fs' =>
            obtain ⟨k, v⟩ := p
            have hshape : stringifyJson (Json.obj ((k, v) :: fs')) ++ rest =
                123 :: (stringifyFields ((k, v) :: fs') ++ 125 :: rest) := by
              simp [stringifyJson, List.append_assoc]
            rw [hshape, parseVal]
            have hne : ¬ (stringifyFields ((k, v) :: fs') ++ 125 :: rest).head? = some 125 := by
              cases fs' with
              | nil => rw [stringifyFields_single]; simp
              | cons q qs => rw [stringifyFields_two]; simp
            have hmeas : fuelJ (Json.obj ((k, v) :: fs')) = fuelFields ((k, v) :: fs') + 1 := rfl
            have hlt : fuelFields ((k, v) :: fs') < N := by omega
            have hle : fuelFields ((k, v) :: fs') ≤ f := by omega
            have hflds := ((ih _ hlt).2.2) ((k, v) :: fs') f rest (by simp) (le_refl _) hle
            rw [if_neg (by omega : ¬(48 ≤ 123 ∧ 123 ≤ 57)),
              if_neg (by omega : ¬(123:Nat) = 45), if_neg (by omega : ¬(123:Nat) = 34),
              if_neg (by omega : ¬(123:Nat) = 91), if_pos (rfl : (123:Nat) = 123),
              if_neg hne, hflds]
            rfl
  · intro xs fuel rest hne hN hfuel
    obtain ⟨f, rfl⟩ : ∃ f, fuel = f + 1 :=
      ⟨fuel - 1, by have := fuelItems_pos xs; omega⟩
    cases xs with
    | nil => exact absurd rfl hne
    | cons x xs' =>
        cases xs' with
        | nil =>
            have hmeas : fuelItems [x] = fuelJ x + 2 := by simp [fuelItems]
            have hlt : fuelJ x < N := by omega
            have hle : fuelJ x ≤ f := by omega
            have hval := (ih _ hlt).1 x f (93 :: rest) (le_refl _) hle (by simp [delimOk])
            simp only [stringifyItems]
            rw [parseItems, hval]
        | cons y ys =>
        have hmeas : fuelItems (x :: y :: ys) = fuelJ x + fuelItems (y :: ys) + 1 := rfl
        have hltx : fuelJ x < N := by have := fuelItems_pos (y :: ys); omega
        have hlex : fuelJ x ≤ f := by have := fuelItems_pos (y :: ys); omega
        have hlti : fuelItems (y :: ys) < N := by have := fuelJ_pos x; omega
        have hlei : fuelItems (y :: ys) ≤ f := by have := fuelJ_pos x; omega
        have hval := (ih _ hltx).1 x f (44 :: (stringifyItems (y :: ys) ++ 93 :: rest))
          (le_refl _) hlex (by simp [delimOk])
        have hrec := ((ih _ hlti).2.1) (y :: ys) f rest (by simp) (le_refl _) hlei
        have hshape : stringifyItems (x :: y :: ys) ++ 93 :: rest =
            stringifyJson x ++ 44 :: (stringifyItems (y :: ys) ++ 93 :: rest) := by
          simp [stringifyItems, List.append_assoc]
        rw [hshape, parseItems, hval]
        norm_num [hrec]
  · intro fs fuel rest hne hN hfuel
    obtain ⟨f, rfl⟩ : ∃ f, fuel = f + 1 :=
      ⟨fuel - 1, by have := fuelFields_pos fs; omega⟩
    cases fs with
    | nil => exact absurd rfl hne
    | cons p fs' =>
        obtain ⟨k, v⟩ := p
        cases fs' with
        | nil =>
            have hmeas : fuelFields [(k, v)] = fuelJ v + 2 := by simp [fuelFields]
            have hlt : fuelJ v < N := by omega
            have hle : fuelJ v ≤ f := by omega
            have hval := (ih _ hlt).1 v f (125 :: rest) (le_refl _) hle (by simp [delimOk])
            rw [stringifyFields_single, parseFields,
              parseStringBody_escape k _ _
                (by have := escapeStr_length_ge k
                    simp only [List.length_append, List.length_cons]
                    omega)]
            norm_num [hval]
        | cons q qs =>
            have hmeas : fuelFields ((k, v) :: q :: qs) =
                fuelJ v + fuelFields (q :: qs) + 1 := rfl
            have hltv : fuelJ v < N := by have := fuelFields_pos (q :: qs); omega
            have hlev : fuelJ v ≤ f := by have := fuelFields_pos (q :: qs); omega
            have hltf : fuelFields (q :: qs) < N := by have := fuelJ_pos v; omega
            have hlef : fuelFields (q :: qs) ≤ f := by have := fuelJ_pos v; omega
            have hval := (ih _ hltv).1 v f (44 :: (stringifyFields (q :: qs) ++ 125 :: rest))
              (le_refl _) hlev (by simp [delimOk])
            have hrec := ((ih _ hltf).2.2) (q :: qs) f rest (by simp) (le_refl _) hlef
            rw [stringifyFields_two, parseFields,
              parseStringBody_escape k _ _
                (by have := escapeStr_length_ge k
                    simp only [List.length_append, List.length_cons]
                    omega)]
            norm_num [hval, hrec]

theorem fuel_le_stringify_all (N : Nat) :
    (∀ v, fuelJ v ≤ N → fuelJ v ≤ 2 * (stringifyJson v).length) ∧
    (∀ xs, fuelItems xs ≤ N → fuelItems xs ≤ 2 * (stringifyItems xs).length + 2) ∧
    (∀ fs, fuelFields fs ≤ N → fuelFields fs ≤ 2 * (stringifyFields fs).length + 2) := by
  induction N using Nat.strong_induction_on with
  | _ N ih =>
  refine ⟨?_, ?_, ?_⟩
  · intro v hN
    cases v with
    | null => simp [fuelJ, stringifyJson]
    | bool b => cases b <;> simp [fuelJ, stringifyJson]
    | num m =>
        have hnn := intStr_ne_nil m
        have hlen : 1 ≤ (intStr m).length := by
          cases h : intStr m with
          | nil => exact absurd h hnn
          | cons a t => simp
        simp only [fuelJ, stringifyJson]
        omega
    | str s =>
        simp only [fuelJ, stringifyJson, quoteStr, List.length_cons, List.length_append]
        omega
    | arr xs =>
        have hmeas : fuelJ (Json.arr xs) = fuelItems xs + 1 := rfl
        have hlt : fuelItems xs < N := by omega
        have hi := (ih _ hlt).2.1 xs (le_refl _)
        simp only [stringifyJson, List.length_cons, List.length_append,
          List.length_singleton] at *
        omega
    | obj fs =>
        have hmeas : fuelJ (Json.obj fs) = fuelFields fs + 1 := rfl
        have hlt : fuelFields fs < N := by omega
        have hi := (ih _ hlt).2.2 fs (le_refl _)
        simp only [stringifyJson, List.length_cons, List.length_append,
          List.length_singleton] at *
        omega
  · intro xs hN
    cases xs with
    | nil => simp [fuelItems, stringifyItems]
    | cons x xs' =>
        cases xs' with
        | nil =>
            have hmeas : fuelItems [x] = fuelJ x + 2 := by simp [fuelItems]
            have hlt : fuelJ x < N := by omega
            have hi := (ih _ hlt).1 x (le_refl _)
            have hsi : stringifyItems [x] = stringifyJson x := by simp [stringifyItems]
            rw [hsi]
            omega
        | cons y ys =>
            have hmeas : fuelItems (x :: y :: ys) = fuelJ x + fuelItems (y :: ys) + 1 := rfl
            have hltx : fuelJ x < N := by have := fuelItems_pos (y :: ys); omega
            have hlty : fuelItems (y :: ys) < N := by have := fuelJ_pos x; omega
            have hix := (ih _ hltx).1 x (le_refl _)
            have hiy := (ih _ hlty).2.1 (y :: ys) (le_refl _)
            have hsi : (stringifyItems (x :: y :: ys)).length =
                (stringifyJson x).length + 1 + (stringifyItems (y :: ys)).length := by
              show (stringifyJson x ++ 44 :: stringifyItems (y :: ys)).length = _
              simp only [List.length_append, List.length_cons]
              omega
            rw [hsi]
            omega
  · intro fs hN
    cases fs with
    | nil => simp [fuelFields, stringifyFields]
    | cons p fs' =>
        obtain ⟨k, v⟩ := p
        cases fs' with
        | nil =>
            have hmeas : fuelFields [(k, v)] = fuelJ v + 2 := by simp [fuelFields]
            have hlt : fuelJ v < N := by omega
            have hi := (ih _ hlt).1 v (le_refl _)
            have hsf : (stringifyFields [(k, v)]).length =
                (quoteStr k).length + 1 + (stringifyJson v).length := by
              show (quoteStr k ++ 58 :: stringifyJson v).length = _
              simp only [List.length_append, List.length_cons]
              omega
            rw [hsf]
            omega
        | cons q qs =>
            have hmeas : fuelFields ((k, v) :: q :: qs) =
                fuelJ v + fuelFields (q :: qs) + 1 := rfl
            have hltv : fuelJ v < N := by have := fuelFields_pos (q :: qs); omega
            have hltq : fuelFields (q :: qs) < N := by have := fuelJ_pos v; omega
            have hiv := (ih _ hltv).1 v (le_refl _)
            have hiq := (ih _ hltq).2.2 (q :: qs) (le_refl _)
            have hsf : (stringifyFields ((k, v) :: q :: qs)).length =
                (quoteStr k).length + 1 + (stringifyJson v).length + 1 +
                  (stringifyFields (q :: qs)).length := by
              show (quoteStr k ++ 58 :: stringifyJson v ++ 44 :: stringifyFields (q :: qs)).length = _
              simp only [List.length_append, List.length_cons]
              omega
            rw [hsf]
            omega

/-- Round trip of the JSON layer: parsing a serialized value recovers it. -/
theorem parseJson_stringifyJson (v : Json) : parseJson (stringifyJson v) = some v := by
  unfold parseJson
  have hb := (fuel_le_stringify_all (fuelJ v)).1 v (le_refl _)
  have h := (parse_stringify_all (fuelJ v)).1 v (2 * (stringifyJson v).length + 2) []
    (le_refl _) (by omega) trivial
  rw [List.append_nil] at h
  rw [h]

theorem allBytes_append (a b : Str) (ha : allBytes a) (hb : allBytes b) :
    allBytes (a ++ b) := by
  intro x hx
  rcases List.mem_append.mp hx with h | h
  · exact ha x h
  · exact hb x h

theorem allBytes_escapeByte (b : Nat) (hb : b < 256) : allBytes (escapeByte b) := by
  intro x hx
  unfold escapeByte at hx
  unfold hexDigitChar at hx
  split at hx
  · simp at hx; omega
  · split at hx
    · simp at hx; omega
    · split at hx
      · simp at hx; omega
      · split at hx
        · simp at hx; omega
        · split at hx
          · simp at hx; omega
          · split at hx
            · simp at hx; omega
            · split at hx
              · simp at hx; omega
              · split at hx
                · simp only [List.mem_cons, List.not_mem_nil, or_false] at hx
                  rcases hx with rfl | rfl | rfl | rfl | rfl | rfl <;>
                    first
                      | omega
                      | (split <;> omega)
                · simp at hx; omega

theorem allBytes_escapeStr (s : Str) (h : allBytes s) : allBytes (escapeStr s) := by
  induction s with
  | nil => intro x hx; simp [escapeStr] at hx
  | cons b t ih =>
      have hb : b < 256 := h b (by simp)
      have ht : allBytes t := fun x hx => h x (by simp [hx])
      have hstep : escapeStr (b :: t) = escapeByte b ++ escapeStr t := by simp [escapeStr]
      rw [hstep]
      exact allBytes_append _ _ (allBytes_escapeByte b hb) (ih ht)

theorem allBytes_cons (c : Nat) (t : Str) (hc : c < 256) (ht : allBytes t) :
    allBytes (c :: t) := by
  intro x hx
  rcases List.mem_cons.mp hx with rfl | hx
  · exact hc
  · exact ht x hx

theorem allBytes_quoteStr (s : Str) (h : allBytes s) : allBytes (quoteStr s) := by
  unfold quoteStr
  exact allBytes_append _ _ (allBytes_cons _ _ (by omega) (allBytes_escapeStr s h))
    (by decide)

theorem allBytes_intStr (m : Int) : allBytes (intStr m) := by
  intro x hx
  unfold intStr at hx
  split at hx
  · simp only [List.mem_cons] at hx
    rcases hx with rfl | hx
    · omega
    · have := natDigits_digits m.natAbs x hx
      omega
  · have := natDigits_digits m.toNat x hx
    omega

theorem allBytes_stringify_all (N : Nat) :
    (∀ v, fuelJ v ≤ N → jsonWf v = true → allBytes (stringifyJson v)) ∧
    (∀ xs, fuelItems xs ≤ N → jsonWfItems xs = true → allBytes (stringifyItems xs)) ∧
    (∀ fs, fuelFields fs ≤ N → jsonWfFields fs = true → allBytes (stringifyFields fs)) := by
  induction N using Nat.strong_induction_on with
  | _ N ih =>
  refine ⟨?_, ?_, ?_⟩
  · intro v hN hwf
    cases v with
    | null => decide
    | bool b => cases b <;> decide
    | num m => exact allBytes_intStr m
    | str s =>
        simp only [jsonWf, List.all_eq_true, decide_eq_true_eq] at hwf
        exact allBytes_quoteStr s hwf
    | arr xs =>
        have hmeas : fuelJ (Json.arr xs) = fuelItems xs + 1 := rfl
        have hlt : fuelItems xs < N := by omega
        have hi := (ih _ hlt).2.1 xs (le_refl _) (by simpa [jsonWf] using hwf)
        show allBytes ((91 :: stringifyItems xs) ++ [93])
        exact allBytes_append _ _ (allBytes_cons _ _ (by omega) hi) (by decide)
    | obj fs =>
        have hmeas : fuelJ (Json.obj fs) = fuelFields fs + 1 := rfl
        have hlt : fuelFields fs < N := by omega
        have hi := (ih _ hlt).2.2 fs (le_refl _) (by simpa [jsonWf] using hwf)
        show allBytes ((123 :: stringifyFields fs) ++ [125])
        exact allBytes_append _ _ (allBytes_cons _ _ (by omega) hi) (by decide)
  · intro xs hN hwf
    cases xs with
    | nil => intro x hx; simp [stringifyItems] at hx
    | cons x xs' =>
        simp only [jsonWfItems, Bool.and_eq_true] at hwf
        cases xs' with
        | nil =>
            have hmeas : fuelItems [x] = fuelJ x + 2 := by simp [fuelItems]
            have hlt : fuelJ x < N := by omega
            have hsi : stringifyItems [x] = stringifyJson x := by simp [stringifyItems]
            rw [hsi]
            exact (ih _ hlt).1 x (le_refl _) hwf.1
        | cons y ys =>
            have hmeas : fuelItems (x :: y :: ys) = fuelJ x + fuelItems (y :: ys) + 1 := rfl
            have hltx : fuelJ x < N := by have := fuelItems_pos (y :: ys); omega
            have hlty : fuelItems (y :: ys) < N := by have := fuelJ_pos x; omega
            have hix := (ih _ hltx).1 x (le_refl _) hwf.1
            have hiy := (ih _ hlty).2.1 (y :: ys) (le_refl _) hwf.2
            show allBytes (stringifyJson x ++ 44 :: stringifyItems (y :: ys))
            exact allBytes_append _ _ hix (allBytes_cons _ _ (by omega) hiy)
  · intro fs hN hwf
    cases fs with
    | nil => intro x hx; simp [stringifyFields] at hx
    | cons p fs' =>
        obtain ⟨k, v⟩ := p
        simp only [jsonWfFields, Bool.and_eq_true, List.all_eq_true,
          decide_eq_true_eq] at hwf
        have hq := allBytes_quoteStr k hwf.1.1
        cases fs' with
        | nil =>
            have hmeas : fuelFields [(k, v)] = fuelJ v + 2 := by simp [fuelFields]
            have hlt : fuelJ v < N := by omega
            have hiv := (ih _ hlt).1 v (le_refl _) hwf.1.2
            show allBytes (quoteStr k ++ 58 :: stringifyJson v)
            exact allBytes_append _ _ hq (allBytes_cons _ _ (by omega) hiv)
        | cons q qs =>
            have hmeas : fuelFields ((k, v) :: q :: qs) =
                fuelJ v + fuelFields (q :: qs) + 1 := rfl
            have hltv : fuelJ v < N := by have := fuelFields_pos (q :: qs); omega
            have hltq : fuelFields (q :: qs) < N := by have := fuelJ_pos v; omega
            have hiv := (ih _ hltv).1 v (le_refl _) hwf.1.2
            have hiq := (ih _ hltq).2.2 (q :: qs) (le_refl _) hwf.2
            show allBytes ((quoteStr k ++ 58 :: stringifyJson v) ++
              44 :: stringifyFields (q :: qs))
            exact allBytes_append _ _
              (allBytes_append _ _ hq (allBytes_cons _ _ (by omega) hiv))
              (allBytes_cons _ _ (by omega) hiq)

/-- Well-formed values serialize to byte strings. -/
theorem allBytes_stringifyJson (v : Json) (h : jsonWf v = true) :
    allBytes (stringifyJson v) :=
  (allBytes_stringify_all (fuelJ v)).1 v (le_refl _) h

theorem gcmKeystream_length (key iv : Str) (n : Nat) :
    (gcmKeystream key iv n).length = n := by
  simp [gcmKeystream]

theorem allBytes_gcmKeystream (key iv : Str) (n : Nat) :
    allBytes (gcmKeystream key iv n) := by
  intro x hx
  simp only [gcmKeystream, List.mem_map] at hx
  obtain ⟨i, _, rfl⟩ := hx
  exact Nat.mod_lt _ (by omega)

theorem gcmTag_length (key iv ct : Str) : (gcmTag key iv ct).length = TAG_LENGTH := by
  simp [gcmTag]

theorem allBytes_gcmTag (key iv ct : Str) : allBytes (gcmTag key iv ct) := by
  intro x hx
  simp only [gcmTag, List.mem_map] at hx
  obtain ⟨i, _, rfl⟩ := hx
  exact Nat.mod_lt _ (by omega)

theorem xorBytes_length (a b : Str) : (xorBytes a b).length = min a.length b.length := by
  simp [xorBytes]

theorem allBytes_xorBytes (a b : Str) (ha : allBytes a) (hb : allBytes b) :
    allBytes (xorBytes a b) := by
  intro x hx
  simp only [xorBytes, List.mem_iff_get] at hx
  obtain ⟨⟨i, hi⟩, rfl⟩ := hx
  simp only [List.get_eq_getElem, List.getElem_zipWith]
  have h256 : (256 : Nat) = 2 ^ 8 := by norm_num
  have hil : i < a.length := by
    simp only [List.length_zipWith] at hi
    omega
  have hir : i < b.length := by
    simp only [List.length_zipWith] at hi
    omega
  have h1 : a[i] < 2 ^ 8 := by
    rw [← h256]
    exact ha _ (List.getElem_mem hil)
  have h2 : b[i] < 2 ^ 8 := by
    rw [← h256]
    exact hb _ (List.getElem_mem hir)
  rw [h256]
  exact Nat.xor_lt_two_pow h1 h2

theorem xorBytes_cancel (a b : Str) (h : a.length = b.length) :
    xorBytes (xorBytes a b) b = a := by
  induction a generalizing b with
  | nil => cases b <;> simp [xorBytes]
  | cons x xs ih =>
      cases b with
      | nil => simp at h
      | cons y ys =>
          simp only [List.length_cons] at h
          simp only [xorBytes, List.zipWith_cons_cons, List.cons.injEq]
          refine ⟨?_, ih ys (by omega)⟩
          rw [Nat.xor_assoc, Nat.xor_self, Nat.xor_zero]

/-- Round trip of the Cipher Codec: decrypting an envelope freshly produced by
`encrypt` under the same key recovers the original structured value. -/
theorem decrypt_encrypt (key iv salt : Str) (v : Json)
    (hiv : iv.length = IV_LENGTH) (hivB : allBytes iv)
    (hsalt : salt.length = SALT_LENGTH) (hsaltB : allBytes salt)
    (hwf : jsonWf v = true) :
    EncryptionService.decrypt key (EncryptionService.encrypt key iv salt v) =
      Except.ok v := by
  have hptB := allBytes_stringifyJson v hwf
  have hksB := allBytes_gcmKeystream key iv (stringifyJson v).length
  have hctB := allBytes_xorBytes _ _ hptB hksB
  have htagB := allBytes_gcmTag key iv
    (xorBytes (stringifyJson v) (gcmKeystream key iv (stringifyJson v).length))
  set pt := stringifyJson v with hpt
  set ks := gcmKeystream key iv pt.length with hks
  set ct := xorBytes pt ks with hct
  set tag := gcmTag key iv ct with htag
  have henvB : allBytes (iv ++ salt ++ tag ++ ct) :=
    allBytes_append _ _
      (allBytes_append _ _ (allBytes_append _ _ hivB hsaltB) htagB) hctB
  have htake16 : (iv ++ salt ++ tag ++ ct).take IV_LENGTH = iv := by
    have h1 : iv ++ salt ++ tag ++ ct = iv ++ (salt ++ (tag ++ ct)) := by
      simp [List.append_assoc]
    rw [h1, ← hiv, List.take_left]
  have hdrop80 : (iv ++ salt ++ tag ++ ct).drop (IV_LENGTH + SALT_LENGTH) =
      tag ++ ct := by
    have h1 : iv ++ salt ++ tag ++ ct = (iv ++ salt) ++ (tag ++ ct) := by
      simp [List.append_assoc]
    have h2 : (iv ++ salt).length = IV_LENGTH + SALT_LENGTH := by
      simp [hiv, hsalt]
    rw [h1, ← h2, List.drop_left]
  have htagext : ((iv ++ salt ++ tag ++ ct).drop (IV_LENGTH + SALT_LENGTH)).take
      TAG_LENGTH = tag := by
    rw [hdrop80, ← gcmTag_length key iv ct, ← htag, List.take_left]
  have hdrop96 : (iv ++ salt ++ tag ++ ct).drop
      (IV_LENGTH + SALT_LENGTH + TAG_LENGTH) = ct := by
    have h1 : iv ++ salt ++ tag ++ ct = ((iv ++ salt) ++ tag) ++ ct := by
      simp [List.append_assoc]
    have h2 : ((iv ++ salt) ++ tag).length = IV_LENGTH + SALT_LENGTH + TAG_LENGTH := by
      simp only [List.length_append, hiv, hsalt, htag, gcmTag_length]
    rw [h1, ← h2, List.drop_left]
  have hctlen : ct.length = pt.length := by
    rw [hct, xorBytes_length, hks, gcmKeystream_length]
    simp
  show EncryptionService.decrypt key (b64urlEncode (iv ++ salt ++ tag ++ ct)) =
    Except.ok v
  unfold EncryptionService.decrypt
  rw [b64decode_b64urlEncode _ henvB]
  show (if List.take TAG_LENGTH (List.drop (IV_LENGTH + SALT_LENGTH)
        (iv ++ salt ++ tag ++ ct)) ≠
      gcmTag key (List.take IV_LENGTH (iv ++ salt ++ tag ++ ct))
        (List.drop (IV_LENGTH + SALT_LENGTH + TAG_LENGTH) (iv ++ salt ++ tag ++ ct))
      then Except.error CryptoError.integrity
    else
      match parseJson (xorBytes
          (List.drop (IV_LENGTH + SALT_LENGTH + TAG_LENGTH) (iv ++ salt ++ tag ++ ct))
          (gcmKeystream key (List.take IV_LENGTH (iv ++ salt ++ tag ++ ct))
            (List.drop (IV_LENGTH + SALT_LENGTH + TAG_LENGTH)
              (iv ++ salt ++ tag ++ ct)).length)) with
      | some w => Except.ok w
      | none => Except.error CryptoError.format) = Except.ok v
  rw [htake16, htagext, hdrop96]
  rw [if_neg (by intro hcon; exact hcon rfl)]
  rw [hctlen, ← hks, hct, xorBytes_cancel pt ks
    (by rw [hks, gcmKeystream_length])]
  rw [hpt, parseJson_stringifyJson]

/-- C1: for every JSON-representable value `v`, decrypting the envelope
produced by encrypting `v` with the same 32-byte service key returns a value
equal to `v`; the envelope packs IV, salt, authentication tag and ciphertext
at fixed offsets in a URL-safe text encoding (see `EncryptionService.encrypt`
and `EncryptionService.decrypt`). -/
theorem claim_C1_roundtrip (key iv salt : Str) (v : Json)
    (_hkey : key.length = KEY_LENGTH)
    (hiv : iv.length = IV_LENGTH) (hivB : allBytes iv)
    (hsalt : salt.length = SALT_LENGTH) (hsaltB : allBytes salt)
    (hwf : jsonWf v = true) :
    EncryptionService.decrypt key (EncryptionService.encrypt key iv salt v) =
      Except.ok v :=
  decrypt_encrypt key iv salt v hiv hivB hsalt hsaltB hwf

theorem claim_C1_roundtrip_witness :
    EncryptionService.decrypt (List.replicate 32 7)
      (EncryptionService.encrypt (List.replicate 32 7) (List.range 16)
        (List.replicate 64 0)
        (Json.obj [([114, 111, 108, 101], Json.str [112, 101, 101, 114])])) =
      Except.ok (Json.obj [([114, 111, 108, 101], Json.str [112, 101, 101, 114])]) :=
  claim_C1_roundtrip (List.replicate 32 7) (List.range 16) (List.replicate 64 0)
    (Json.obj [([114, 111, 108, 101], Json.str [112, 101, 101, 114])])
    (by decide) (by decide) (by decide) (by decide) (by decide) (by decide)

/-- C4: constructing the Cipher Codec with a key string whose decoded length
is not exactly 32 bytes always fails at construction time with a key error,
and a key that decodes to exactly 32 bytes always succeeds (Node's forgiving
base64 decode itself never throws, so the decode-failure case is subsumed by
the length check). -/
theorem claim_C4_key_format_gate (encryptionKey : Str) :
    ((b64decode encryptionKey).length ≠ KEY_LENGTH →
      ∃ e, EncryptionService.mkKey encryptionKey = Except.error e) ∧
    ((b64decode encryptionKey).length = KEY_LENGTH →
      EncryptionService.mkKey encryptionKey =
        Except.ok (b64decode encryptionKey)) := by
  constructor
  · intro hne
    unfold EncryptionService.mkKey
    by_cases hnil : encryptionKey = []
    · exact ⟨CryptoError.keyRequired, by rw [if_pos hnil]⟩
    · exact ⟨CryptoError.keyFormat, by rw [if_neg hnil, if_pos hne]⟩
  · intro he
    unfold EncryptionService.mkKey
    have hnil : encryptionKey ≠ [] := by
      intro h
      rw [h] at he
      simp [b64decode, sextetsToBytes, KEY_LENGTH] at he
    rw [if_neg hnil, if_neg (by omega)]

theorem claim_C4_key_format_gate_witness :
    EncryptionService.mkKey (List.replicate 43 65) =
      Except.ok (List.replicate 32 0) ∧
    (∃ e, EncryptionService.mkKey [65] = Except.error e) := by
  constructor
  · have h := (claim_C4_key_format_gate (List.replicate 43 65)).2 (by decide)
    rw [h]
    rfl
  · exact (claim_C4_key_format_gate [65]).1 (by decide)

theorem canonFields_keys (fs : List (Str × Json)) :
    (canonFields fs).map Prod.fst = fs.map Prod.fst := by
  induction fs with
  | nil => rfl
  | cons p rest ih =>
      obtain ⟨k, v⟩ := p
      simp only [canonFields, List.map_cons, ih]

theorem dedupKeysAux_eq_self (fs : List (Str × Json)) :
    ∀ seen, (fs.map Prod.fst).Nodup → (∀ k ∈ fs.map Prod.fst, k ∉ seen) →
      dedupKeysAux seen fs = fs := by
  induction fs with
  | nil => intro seen _ _; rfl
  | cons p rest ih =>
      intro seen hnd hno
      obtain ⟨k, v⟩ := p
      simp only [List.map_cons, List.nodup_cons] at hnd
      have hkno : k ∉ seen := hno k (by simp)
      simp only [dedupKeysAux, if_neg hkno]
      rw [ih (k :: seen) hnd.2]
      intro k2 hk2
      simp only [List.mem_cons]
      push_neg
      constructor
      · intro heq
        subst heq
        exact hnd.1 hk2
      · exact hno k2 (by simp [hk2])

theorem dedupKeys_eq_self (fs : List (Str × Json))
    (h : (fs.map Prod.fst).Nodup) : dedupKeys fs = fs :=
  dedupKeysAux_eq_self fs [] h (by simp)

theorem map_fst_orderedInsert (p : Str × Json) (l : List (Str × Json)) :
    (List.orderedInsert fieldLe p l).map Prod.fst =
      List.orderedInsert keyLe p.1 (l.map Prod.fst) := by
  induction l with
  | nil => rfl
  | cons q rest ih =>
      simp only [List.orderedInsert, List.map_cons]
      by_cases h : fieldLe p q
      · have h2 : keyLe p.1 q.1 := h
        rw [if_pos h, if_pos h2]
        simp
      · have h2 : ¬ keyLe p.1 q.1 := h
        rw [if_neg h, if_neg h2]
        simp [ih]

theorem map_fst_sortFields (fs : List (Str × Json)) :
    (sortFields fs).map Prod.fst = jsKeysSort (fs.map Prod.fst) := by
  induction fs with
  | nil => rfl
  | cons p rest ih =>
      simp only [sortFields, jsKeysSort, List.insertionSort, List.map_cons] at *
      rw [map_fst_orderedInsert, ih]

theorem lookupKey_some_mem (k : Str) (fs : List (Str × Json)) (v : Json)
    (h : lookupKey k fs = some v) : (k, v) ∈ fs := by
  induction fs with
  | nil => simp [lookupKey] at h
  | cons p rest ih =>
      obtain ⟨k2, v2⟩ := p
      simp only [lookupKey] at h
      split at h
      · rename_i heq
        simp only [Option.some.injEq] at h
        subst heq
        subst h
        simp
      · simp [ih h]

theorem mem_lookupKey (k : Str) (fs : List (Str × Json)) (v : Json)
    (hmem : (k, v) ∈ fs) (hnd : (fs.map Prod.fst).Nodup) :
    lookupKey k fs = some v := by
  induction fs with
  | nil => simp at hmem
  | cons p rest ih =>
      obtain ⟨k2, v2⟩ := p
      simp only [List.map_cons, List.nodup_cons] at hnd
      rcases List.mem_cons.mp hmem with heq | hmem2
      · cases heq
        simp [lookupKey]
      · have hne : k2 ≠ k := by
          intro heq
          subst heq
          exact hnd.1 (by
            have : (k2, v) ∈ rest := hmem2
            exact List.mem_map.mpr ⟨(k2, v), this, rfl⟩)
        simp only [lookupKey, if_neg hne]
        exact ih hmem2 hnd.2

theorem lookupKey_none_iff (k : Str) (fs : List (Str × Json)) :
    lookupKey k fs = none ↔ k ∉ fs.map Prod.fst := by
  induction fs with
  | nil => simp [lookupKey]
  | cons p rest ih =>
      obtain ⟨k2, v2⟩ := p
      simp only [lookupKey, List.map_cons, List.mem_cons]
      split
      · rename_i heq
        subst heq
        simp
      · rename_i hne
        simp only [ih]
        constructor
        · intro h hk
          rcases hk with rfl | hk
          · exact hne rfl
          · exact h hk
        · intro h hk
          exact h (Or.inr hk)

theorem mem_canonFields (k : Str) (v : Json) (fs : List (Str × Json))
    (h : (k, v) ∈ fs) : (k, canonJson v) ∈ canonFields fs := by
  induction fs with
  | nil => simp at h
  | cons p rest ih =>
      obtain ⟨k2, v2⟩ := p
      rcases List.mem_cons.mp h with heq | hmem
      · cases heq
        simp [canonFields]
      · simp only [canonFields, List.mem_cons]
        exact Or.inr (ih hmem)

theorem canonFields_mem (p : Str × Json) (fs : List (Str × Json))
    (h : p ∈ canonFields fs) : ∃ v, p.2 = canonJson v ∧ (p.1, v) ∈ fs := by
  induction fs with
  | nil => simp [canonFields] at h
  | cons q rest ih =>
      obtain ⟨k2, v2⟩ := q
      simp only [canonFields, List.mem_cons] at h
      rcases h with rfl | h
      · exact ⟨v2, rfl, by simp⟩
      · obtain ⟨v, hv, hmem⟩ := ih h
        exact ⟨v, hv, by simp [hmem]⟩

theorem lookupS_stringifyFFields (k : Str) (ks : List Str)
    (fs : List (Str × Json)) :
    lookupS k (stringifyFFields ks fs) = (lookupKey k fs).map (stringifyF ks) := by
  induction fs with
  | nil => rfl
  | cons p rest ih =>
      obtain ⟨k2, v2⟩ := p
      simp only [stringifyFFields, lookupS, lookupKey]
      split
      · rfl
      · exact ih

theorem fuelJ_lt_of_mem_fields (k : Str) (v : Json) (fs : List (Str × Json))
    (h : (k, v) ∈ fs) : fuelJ v < fuelFields fs := by
  induction fs with
  | nil => simp at h
  | cons p rest ih =>
      rcases List.mem_cons.mp h with heq | hmem
      · have : p.2 = v := congrArg Prod.snd heq.symm
        subst this
        have := fuelFields_pos rest
        show fuelJ p.2 < fuelJ p.2 + fuelFields rest + 1
        omega
      · have h1 := ih hmem
        have := fuelJ_pos p.2
        show fuelJ v < fuelJ p.2 + fuelFields rest + 1
        omega

theorem nodupKeysFields_val (fs : List (Str × Json)) (k : Str) (v : Json)
    (h : nodupKeysFields fs = true) (hm : (k, v) ∈ fs) : nodupKeysJ v = true := by
  induction fs with
  | nil => simp at hm
  | cons p rest ih =>
      simp only [nodupKeysFields, Bool.and_eq_true] at h
      rcases List.mem_cons.mp hm with heq | hm2
      · cases heq
        exact h.1
      · exact ih h.2 hm2

theorem canon_obj_sorted_fields (f1 f2 : List (Str × Json))
    (h : canonJson (Json.obj f1) = canonJson (Json.obj f2)) :
    sortFields (dedupKeys (canonFields f1)) = sortFields (dedupKeys (canonFields f2)) := by
  simpa [canonJson] using h

theorem canonFields_perm_of_canon (f1 f2 : List (Str × Json))
    (hnd1 : (f1.map Prod.fst).Nodup) (hnd2 : (f2.map Prod.fst).Nodup)
    (h : canonJson (Json.obj f1) = canonJson (Json.obj f2)) :
    (canonFields f1).Perm (canonFields f2) := by
  have hs := canon_obj_sorted_fields f1 f2 h
  rw [dedupKeys_eq_self _ (by rw [canonFields_keys]; exact hnd1),
    dedupKeys_eq_self _ (by rw [canonFields_keys]; exact hnd2)] at hs
  have p1 : (canonFields f1).Perm (sortFields (canonFields f1)) :=
    (List.perm_insertionSort fieldLe _).symm
  have p2 : (sortFields (canonFields f2)).Perm (canonFields f2) :=
    List.perm_insertionSort fieldLe _
  exact p1.trans (hs ▸ p2)

theorem keys_perm_of_canon (f1 f2 : List (Str × Json))
    (hnd1 : (f1.map Prod.fst).Nodup) (hnd2 : (f2.map Prod.fst).Nodup)
    (h : canonJson (Json.obj f1) = canonJson (Json.obj f2)) :
    (f1.map Prod.fst).Perm (f2.map Prod.fst) := by
  have hp := (canonFields_perm_of_canon f1 f2 hnd1 hnd2 h).map Prod.fst
  rw [canonFields_keys, canonFields_keys] at hp
  exact hp

theorem canon_obj_keys_sorted (f1 f2 : List (Str × Json))
    (hnd1 : (f1.map Prod.fst).Nodup) (hnd2 : (f2.map Prod.fst).Nodup)
    (h : canonJson (Json.obj f1) = canonJson (Json.obj f2)) :
    jsKeysSort (f1.map Prod.fst) = jsKeysSort (f2.map Prod.fst) := by
  have hs := canon_obj_sorted_fields f1 f2 h
  have h1 : (sortFields (dedupKeys (canonFields f1))).map Prod.fst =
      jsKeysSort (f1.map Prod.fst) := by
    rw [dedupKeys_eq_self _ (by rw [canonFields_keys]; exact hnd1),
      map_fst_sortFields, canonFields_keys]
  have h2 : (sortFields (dedupKeys (canonFields f2))).map Prod.fst =
      jsKeysSort (f2.map Prod.fst) := by
    rw [dedupKeys_eq_self _ (by rw [canonFields_keys]; exact hnd2),
      map_fst_sortFields, canonFields_keys]
  rw [← h1, ← h2, hs]

theorem stringifyF_canon_all (N : Nat) :
    (∀ v1 v2 ks, fuelJ v1 ≤ N → nodupKeysJ v1 = true → nodupKeysJ v2 = true →
      canonJson v1 = canonJson v2 → stringifyF ks v1 = stringifyF ks v2) ∧
    (∀ xs1 xs2 ks, fuelItems xs1 ≤ N → nodupKeysItems xs1 = true →
      nodupKeysItems xs2 = true → canonItems xs1 = canonItems xs2 →
      stringifyFItems ks xs1 = stringifyFItems ks xs2) := by
  induction N using Nat.strong_induction_on with
  | _ N ih =>
  constructor
  · intro v1 v2 ks hN hnd1 hnd2 hc
    cases v1 with
    | null => cases v2 <;> simp_all [canonJson]
    | bool b => cases v2 <;> simp_all [canonJson]
    | num m => cases v2 <;> simp_all [canonJson]
    | str s => cases v2 <;> simp_all [canonJson]
    | arr xs1 =>
        cases v2 with
        | arr xs2 =>
            have hc2 : canonItems xs1 = canonItems xs2 := by
              simpa [canonJson] using hc
            have hmeas : fuelJ (Json.arr xs1) = fuelItems xs1 + 1 := rfl
            have hlt : fuelItems xs1 < N := by omega
            have hI := (ih _ hlt).2 xs1 xs2 ks (le_refl _)
              (by simpa [nodupKeysJ] using hnd1) (by simpa [nodupKeysJ] using hnd2) hc2
            simp only [stringifyF, hI]
        | null => simp [canonJson] at hc
        | bool b => simp [canonJson] at hc
        | num m => simp [canonJson] at hc
        | str s => simp [canonJson] at hc
        | obj f2 => simp [canonJson] at hc
    | obj f1 =>
        cases v2 with
        | null => simp [canonJson] at hc
        | bool b => simp [canonJson] at hc
        | num m => simp [canonJson] at hc
        | str s => simp [canonJson] at hc
        | arr xs2 => simp [canonJson] at hc
        | obj f2 =>
            simp only [nodupKeysJ, Bool.and_eq_true, decide_eq_true_eq] at hnd1 hnd2
            have hperm := canonFields_perm_of_canon f1 f2 hnd1.1 hnd2.1 hc
            have hkperm := keys_perm_of_canon f1 f2 hnd1.1 hnd2.1 hc
            have hpoint : ∀ k : Str,
                (lookupS k (stringifyFFields ks f1)).map
                    (fun sv => quoteStr k ++ 58 :: sv) =
                  (lookupS k (stringifyFFields ks f2)).map
                    (fun sv => quoteStr k ++ 58 :: sv) := by
              intro k
              rw [lookupS_stringifyFFields, lookupS_stringifyFFields]
              cases hl1 : lookupKey k f1 with
              | none =>
                  have hn1 : k ∉ f1.map Prod.fst := (lookupKey_none_iff k f1).mp hl1
                  have hn2 : k ∉ f2.map Prod.fst := fun hmem =>
                    hn1 (hkperm.mem_iff.mpr hmem)
                  rw [(lookupKey_none_iff k f2).mpr hn2]
              | some v1 =>
                  have hm1 : (k, v1) ∈ f1 := lookupKey_some_mem k f1 v1 hl1
                  have hcm1 : (k, canonJson v1) ∈ canonFields f1 :=
                    mem_canonFields k v1 f1 hm1
                  have hcm2 : (k, canonJson v1) ∈ canonFields f2 :=
                    hperm.mem_iff.mp hcm1
                  obtain ⟨v2, hv2eq, hm2⟩ := canonFields_mem _ f2 hcm2
                  have hl2 : lookupKey k f2 = some v2 :=
                    mem_lookupKey k f2 v2 hm2 hnd2.1
                  rw [hl2]
                  have hflt : fuelJ v1 < fuelFields f1 := fuelJ_lt_of_mem_fields k v1 f1 hm1
                  have hmeas : fuelJ (Json.obj f1) = fuelFields f1 + 1 := rfl
                  have hlt : fuelJ v1 < N := by omega
                  have hIv := (ih _ hlt).1 v1 v2 ks (le_refl _)
                    (nodupKeysFields_val f1 k v1 hnd1.2 hm1)
                    (nodupKeysFields_val f2 k v2 hnd2.2 hm2)
                    hv2eq
                  simp [hIv]
            show 123 :: renderFObj ks (stringifyFFields ks f1) ++ [125] =
              123 :: renderFObj ks (stringifyFFields ks f2) ++ [125]
            have hr : renderFObj ks (stringifyFFields ks f1) =
                renderFObj ks (stringifyFFields ks f2) := by
              unfold renderFObj
              congr 1
              exact List.filterMap_congr (fun k _ => hpoint k)
            rw [hr]
  · intro xs1 xs2 ks hN hnd1 hnd2 hc
    cases xs1 with
    | nil =>
        cases xs2 with
        | nil => rfl
        | cons y ys => simp [canonItems] at hc
    | cons x xs1' =>
        cases xs2 with
        | nil => simp [canonItems] at hc
        | cons y xs2' =>
            have hc2 : canonJson x = canonJson y ∧ canonItems xs1' = canonItems xs2' := by
              simpa [canonItems] using hc
            simp only [nodupKeysItems, Bool.and_eq_true] at hnd1 hnd2
            have hmeasx : fuelItems (x :: xs1') = fuelJ x + fuelItems xs1' + 1 := rfl
            have hltx : fuelJ x < N := by have := fuelItems_pos xs1'; omega
            have hIx := (ih _ hltx).1 x y ks (le_refl _) hnd1.1 hnd2.1 hc2.1
            cases xs1' with
            | nil =>
                cases xs2' with
                | nil => simpa [stringifyFItems] using hIx
                | cons b bs => simp [canonItems] at hc2
            | cons a as =>
                cases xs2' with
                | nil => simp [canonItems] at hc2
                | cons b bs =>
                    have hlti : fuelItems (a :: as) < N := by
                      have := fuelJ_pos x
                      omega
                    have hIi := (ih _ hlti).2 (a :: as) (b :: bs) ks (le_refl _)
                      hnd1.2 hnd2.2 hc2.2
                    show stringifyF ks x ++ 44 :: stringifyFItems ks (a :: as) =
                      stringifyF ks y ++ 44 :: stringifyFItems ks (b :: bs)
                    rw [hIx, hIi]

/-- Canonically-equal leader objects (same key-value mapping at every level,
any key order, no duplicate keys) receive the identical blind-index hash. -/
theorem createLeaderHash_canon (L1 L2 : Json)
    (hnd1 : nodupKeysJ L1 = true) (hnd2 : nodupKeysJ L2 = true)
    (hc : canonJson L1 = canonJson L2) :
    createLeaderHash L1 = createLeaderHash L2 := by
  have hks : jsKeysSort (objTopKeys L1) = jsKeysSort (objTopKeys L2) := by
    cases L1 with
    | obj f1 =>
        cases L2 with
        | obj f2 =>
            have h1 := canon_obj_keys_sorted f1 f2
              (by simpa [nodupKeysJ, Bool.and_eq_true, decide_eq_true_eq] using
                (by simp only [nodupKeysJ, Bool.and_eq_true, decide_eq_true_eq] at hnd1
                    exact hnd1.1))
              (by simp only [nodupKeysJ, Bool.and_eq_true, decide_eq_true_eq] at hnd2
                  exact hnd2.1) hc
            simpa [objTopKeys] using h1
        | null => simp [canonJson] at hc
        | bool b => simp [canonJson] at hc
        | num m => simp [canonJson] at hc
        | str s => simp [canonJson] at hc
        | arr xs => simp [canonJson] at hc
    | null => cases L2 <;> simp_all [canonJson, objTopKeys]
    | bool b => cases L2 <;> simp_all [canonJson, objTopKeys]
    | num m => cases L2 <;> simp_all [canonJson, objTopKeys]
    | str s => cases L2 <;> simp_all [canonJson, objTopKeys]
    | arr xs => cases L2 <;> simp_all [canonJson, objTopKeys]
  have hsf := (stringifyF_canon_all (fuelJ L1)).1 L1 L2
    (jsKeysSort (objTopKeys L1)) (le_refl _) hnd1 hnd2 hc
  unfold createLeaderHash
  rw [hks] at hsf
  rw [hks, hsf]

theorem insertResponseRow_ok (db : Db) (row : ResponseRow) (db2 : Db)
    (h : insertResponseRow db row = .ok db2) :
    db2 = { db with responses := db.responses ++ [row] } := by
  unfold insertResponseRow at h
  split at h
  · simp at h
  · split at h
    · simp at h
    · simpa using h.symm

theorem insertAllResponses_ok (key : Str) (now : Nat) (aid : Nat) :
    ∀ (entries : List SubmitEntry) (db db2 : Db),
      insertAllResponses key now aid db entries = .ok db2 →
      db2.assessments = db.assessments ∧
      db2.responses = db.responses ++ entries.map (responseRowOf key now aid) := by
  intro entries
  induction entries with
  | nil =>
      intro db db2 h
      simp only [insertAllResponses, Except.ok.injEq] at h
      subst h
      simp
  | cons e rest ih =>
      intro db db2 h
      simp only [insertAllResponses] at h
      split at h
      · rename_i db' hrow
        have hr := insertResponseRow_ok db _ db' hrow
        subst hr
        have := ih _ db2 h
        simp only [List.map_cons] at *
        refine ⟨this.1, ?_⟩
        rw [this.2]
        simp
      · simp at h

/-- C2: the submit transaction is atomic.  If any insert of the batch fails,
the handler rolls back and the store — the assessment's `completed_at`
included — is exactly the pre-call store with zero rows from the batch; on
success `completed_at` is set and exactly one row per entry is appended. -/
theorem claim_C2_submit_atomicity (key : Str) (now : Nat) (db : Db) (aid : Nat)
    (entries : List SubmitEntry) :
    (∀ er, insertAllResponses key now aid (setCompleted db aid now) entries =
        .error er → submitAssessment key now db aid entries = (db, false)) ∧
    (∀ db2, insertAllResponses key now aid (setCompleted db aid now) entries =
        .ok db2 →
      submitAssessment key now db aid entries = (db2, true) ∧
      db2.assessments = (setCompleted db aid now).assessments ∧
      db2.responses = db.responses ++ entries.map (responseRowOf key now aid)) := by
  constructor
  · intro er her
    unfold submitAssessment
    rw [her]
  · intro db2 hok
    have hshape := insertAllResponses_ok key now aid entries _ db2 hok
    refine ⟨?_, hshape.1, ?_⟩
    · unfold submitAssessment
      rw [hok]
    · rw [hshape.2]
      rfl

theorem claim_C2_submit_atomicity_witness :
    submitAssessment (List.replicate 32 7) 5
      ⟨[⟨1, [], [], [], [112, 101, 101, 114], 0, 0, none⟩], []⟩ 1
      [⟨[113], [52], [], []⟩, ⟨[113], [53], [], []⟩] =
      (⟨[⟨1, [], [], [], [112, 101, 101, 114], 0, 0, none⟩], []⟩, false) := by
  have h := (claim_C2_submit_atomicity (List.replicate 32 7) 5
    ⟨[⟨1, [], [], [], [112, 101, 101, 114], 0, 0, none⟩], []⟩ 1
    [⟨[113], [52], [], []⟩, ⟨[113], [53], [], []⟩]).1 DbError.uniqueViolation
  exact h (by rfl)

/-- C5 counterexample: when the token parameter is absent the middleware
responds 400 (`Missing token parameter`), not the claimed 401. -/
theorem claim_C5_counterexample :
    validateTokenMw (List.replicate 32 7) none = TokenGateResult.reject 400 ∧
    (400 : Nat) ≠ 401 := ⟨rfl, by decide⟩

/-- C5 amended: the Token Gate rejects with status 400 when the token
parameter is absent (or empty, JS-falsy), rejects with 401 when Cipher Codec
decryption of the supplied token fails, and on success passes the decrypted
payload to the downstream handler. -/
theorem claim_C5_token_gate (key : Str) (tp : Option Str) :
    (tp = none → validateTokenMw key tp = .reject 400) ∧
    (∀ t, tp = some t → t = [] → validateTokenMw key tp = .reject 400) ∧
    (∀ t e, tp = some t → t ≠ [] → EncryptionService.decrypt key t = .error e →
      validateTokenMw key tp = .reject 401) ∧
    (∀ t payload, tp = some t → t ≠ [] →
      EncryptionService.decrypt key t = .ok payload →
      validateTokenMw key tp = .accept payload) := by
  refine ⟨?_, ?_, ?_, ?_⟩
  · intro h
    subst h
    rfl
  · intro t h he
    subst h
    subst he
    rfl
  · intro t e h hne hd
    subst h
    simp only [validateTokenMw, if_neg hne, hd]
  · intro t payload h hne hd
    subst h
    simp only [validateTokenMw, if_neg hne, hd]

theorem claim_C5_token_gate_witness :
    validateTokenMw (List.replicate 32 7) none = TokenGateResult.reject 400 ∧
    validateTokenMw (List.replicate 32 7) (some [33]) = TokenGateResult.reject 401 := by
  constructor
  · exact (claim_C5_token_gate (List.replicate 32 7) none).1 rfl
  · exact (claim_C5_token_gate (List.replicate 32 7) (some [33])).2.2.1 [33]
      CryptoError.integrity rfl (by simp) (by rfl)

/-- C7: the statistics endpoint can never produce the claimed aggregates: its
first query compares `role` to the literals `leader` and `rater`, which are
not values of the schema's `assessment_role` enum (`manager`, `peer`, `self`,
`direct_report`), so the enum coercion fails while the query is planned and
the endpoint errors for every store state — and its per-question query would
cast ciphertext responses to FLOAT rather than excluding them. -/
theorem claim_C7_statistics_always_errors (db : Db) :
    getStatistics db = .error DbError.invalidEnumValue := rfl

/-- C9: the sorted top-level keys act as a `JSON.stringify` replacer array
that also filters nested objects, so two distinct leader objects differing
only in a nested field whose name is not a top-level key serialize — and
hash — identically: the blind index cannot distinguish them. -/
theorem claim_C9_nested_replacer_collision :
    createLeaderHash (Json.obj [([105, 100], Json.obj [([120], Json.str [49])])]) =
      createLeaderHash (Json.obj [([105, 100], Json.obj [([120], Json.str [50])])]) ∧
    Json.obj [([105, 100], Json.obj [([120], Json.str [49])])] ≠
      Json.obj [([105, 100], Json.obj [([120], Json.str [50])])] := by
  constructor
  · rfl
  · simp

/-- C3: the blind-index fingerprint is a deterministic pure function of the
decrypted leader identifier, independent of key order: identifiers with the
same key-value mapping (any key order, no duplicate keys) hash identically,
so assessments created from such leader tokens all appear in `listByLeader`
under either leader's token. -/
theorem claim_C3_blind_index (key : Str) (db : Db) (token : Str)
    (L1 L2 : Json) (r1 r2 : AssessmentRow)
    (hd : EncryptionService.decrypt key token = .ok L1)
    (hnd1 : nodupKeysJ L1 = true) (hnd2 : nodupKeysJ L2 = true)
    (hc : canonJson L1 = canonJson L2)
    (hm1 : r1 ∈ db.assessments) (hh1 : r1.leaderHash = createLeaderHash L1)
    (hm2 : r2 ∈ db.assessments) (hh2 : r2.leaderHash = createLeaderHash L2) :
    createLeaderHash L1 = createLeaderHash L2 ∧
    ∃ rows, listByLeader key db token = .ok rows ∧
      transformAssessment key db r1 ∈ rows ∧
      transformAssessment key db r2 ∈ rows := by
  have hhash := createLeaderHash_canon L1 L2 hnd1 hnd2 hc
  refine ⟨hhash, ?_⟩
  have hf1 : r1 ∈ db.assessments.filter
      (fun a => decide (a.leaderHash = createLeaderHash L1)) :=
    List.mem_filter.mpr ⟨hm1, by simp [hh1]⟩
  have hf2 : r2 ∈ db.assessments.filter
      (fun a => decide (a.leaderHash = createLeaderHash L1)) :=
    List.mem_filter.mpr ⟨hm2, by simp [hh2, hhash]⟩
  have hs1 : r1 ∈ List.insertionSort newestFirst (db.assessments.filter
      (fun a => decide (a.leaderHash = createLeaderHash L1))) :=
    (List.perm_insertionSort newestFirst _).mem_iff.mpr hf1
  have hs2 : r2 ∈ List.insertionSort newestFirst (db.assessments.filter
      (fun a => decide (a.leaderHash = createLeaderHash L1))) :=
    (List.perm_insertionSort newestFirst _).mem_iff.mpr hf2
  have hne : (db.assessments.filter
      (fun a => decide (a.leaderHash = createLeaderHash L1))).isEmpty = false := by
    cases hcase : db.assessments.filter
        (fun a => decide (a.leaderHash = createLeaderHash L1)) with
    | nil => rw [hcase] at hf1; simp at hf1
    | cons x xs => simp [List.isEmpty]
  unfold listByLeader
  rw [hd]
  simp only [hne, Bool.false_eq_true, if_false]
  exact ⟨_, rfl, List.mem_map.mpr ⟨r1, hs1, rfl⟩, List.mem_map.mpr ⟨r2, hs2, rfl⟩⟩

theorem claim_C3_blind_index_witness :
    createLeaderHash wL1 = createLeaderHash wL2 ∧
    ∃ rows, listByLeader wKey wDb wToken = .ok rows ∧
      transformAssessment wKey wDb wRow1 ∈ rows ∧
      transformAssessment wKey wDb wRow2 ∈ rows :=
  claim_C3_blind_index wKey wDb wToken wL1 wL2 wRow1 wRow2
    (decrypt_encrypt wKey wIv wSalt wL1 (by decide) (by decide) (by decide)
      (by decide) (by rfl))
    (by rfl) (by rfl) (by rfl) (by simp [wDb]) (by rfl) (by simp [wDb]) (by rfl)

/-- C8 counterexample: in the admin listing, a failing leader decrypt
substitutes the sentinel for the rater identifier as well, even though the
rater ciphertext decrypts successfully — refuting "the sentinel marker is
substituted for that specific field only, every other field still returned
decrypted". -/
theorem claim_C8_counterexample :
    EncryptionService.decrypt wKey wBadRow.encryptedRaterIdentifier =
      .ok (Json.str [114]) ∧
    (listAssessments wKey wBadDb).map (fun t => t.raterIdentifier) =
      [Json.str sentinel] ∧
    Json.str sentinel ≠ Json.str [114] := by
  refine ⟨?_, ?_, by simp [sentinel]⟩
  · exact decrypt_encrypt wKey wIv wSalt (Json.str [114]) (by decide) (by decide)
      (by decide) (by decide) (by rfl)
  · rfl

/-- C8 amended: the admin listing never fails as a whole and returns every
row newest first; a decryption failure of either identifier substitutes the
sentinel for BOTH identifier fields of that row (the two decrypts share one
try/catch), not only for the failing field; each open-ended response is
decrypted individually with a per-response sentinel, ratings pass through,
and other rows are unaffected. -/
theorem claim_C8_sentinel_policy (key : Str) (db : Db) :
    ((listAssessments key db).map (fun t => t.createdAt)).Sorted (· ≥ ·) ∧
    (∀ a ∈ db.assessments, transformAssessment key db a ∈ listAssessments key db) ∧
    (∀ a : AssessmentRow,
      (∀ l r, EncryptionService.decrypt key a.encryptedLeaderIdentifier = .ok l →
        EncryptionService.decrypt key a.encryptedRaterIdentifier = .ok r →
        transformIdentifiers key a = (l, r)) ∧
      (∀ e, EncryptionService.decrypt key a.encryptedLeaderIdentifier = .error e →
        transformIdentifiers key a = (Json.str sentinel, Json.str sentinel)) ∧
      (∀ e, EncryptionService.decrypt key a.encryptedRaterIdentifier = .error e →
        transformIdentifiers key a = (Json.str sentinel, Json.str sentinel))) ∧
    (∀ r : ResponseRow,
      (isOpenQuestion r.questionId = false →
        transformResponse key r = Json.str r.response) ∧
      (∀ v, isOpenQuestion r.questionId = true →
        EncryptionService.decrypt key r.response = .ok v →
        transformResponse key r = v) ∧
      (∀ e, isOpenQuestion r.questionId = true →
        EncryptionService.decrypt key r.response = .error e →
        transformResponse key r = Json.str sentinel)) := by
  refine ⟨?_, ?_, ?_, ?_⟩
  · have hs : (List.insertionSort newestFirst db.assessments).Pairwise newestFirst :=
      List.sorted_insertionSort newestFirst db.assessments
    unfold listAssessments
    rw [List.map_map]
    exact List.Pairwise.map _ (fun a b h => h) hs
  · intro a ha
    exact List.mem_map.mpr
      ⟨a, (List.perm_insertionSort newestFirst _).mem_iff.mpr ha, rfl⟩
  · intro a
    refine ⟨?_, ?_, ?_⟩
    · intro l r hl hr
      unfold transformIdentifiers
      rw [hl, hr]
    · intro e hl
      unfold transformIdentifiers
      rw [hl]
    · intro e hr
      unfold transformIdentifiers
      rw [hr]
      cases EncryptionService.decrypt key a.encryptedLeaderIdentifier <;> rfl
  · intro r
    refine ⟨?_, ?_, ?_⟩
    · intro hflat
      simp [transformResponse, hflat]
    · intro v hop hd
      simp [transformResponse, hop, hd]
    · intro e hop hd
      simp [transformResponse, hop, hd]

theorem claim_C8_sentinel_policy_witness :
    transformIdentifiers wKey wBadRow = (Json.str sentinel, Json.str sentinel) :=
  ((claim_C8_sentinel_policy wKey wBadDb).2.2.1 wBadRow).2.1
    CryptoError.integrity (by rfl)

theorem find_setCompleted (l : List AssessmentRow) (aid now : Nat)
    (hex : ∃ a ∈ l, a.id = aid) :
    ∃ a2, (l.map (fun a => if a.id = aid then
        { a with completedAt := some now, updatedAt := now } else a)).find?
          (fun x => decide (x.id = aid)) = some a2 ∧
      a2.completedAt = some now := by
  induction l with
  | nil => simp at hex
  | cons a l ih =>
      by_cases hid : a.id = aid
      · refine ⟨{ a with completedAt := some now, updatedAt := now }, ?_, rfl⟩
        simp only [List.map_cons, if_pos hid]
        rw [List.find?_cons_of_pos _ (by simp [hid])]
      · obtain ⟨b, hb, hbid⟩ := hex
        rcases List.mem_cons.mp hb with rfl | hb2
        · exact absurd hbid hid
        · obtain ⟨a2, hfind, hcomp⟩ := ih ⟨b, hb2, hbid⟩
          refine ⟨a2, ?_, hcomp⟩
          simp only [List.map_cons, if_neg hid]
          rw [List.find?_cons_of_neg _ (by simp [hid])]
          exact hfind

/-- C6: for every entry of a successfully submitted batch, the stored value is
the Cipher Codec encryption of the response exactly when the question id
carries the `open_` naming convention (and decrypts back to the original),
while rating responses are stored as their plain text; a subsequent
`getAssessment` returns `completed_at` set, the rating responses literally
unchanged and the open-ended responses decrypted back to the original text. -/
theorem claim_C6_selective_encryption (key : Str) (now : Nat) (db : Db) (aid : Nat)
    (entries : List SubmitEntry)
    (_hkey : key.length = KEY_LENGTH)
    (hsucc : (submitAssessment key now db aid entries).2 = true)
    (hex : ∃ a ∈ db.assessments, a.id = aid)
    (hwf : ∀ e ∈ entries, e.iv.length = IV_LENGTH ∧ allBytes e.iv ∧
      e.salt.length = SALT_LENGTH ∧ allBytes e.salt ∧ allBytes e.response) :
    (∀ e ∈ entries,
      (isOpenQuestion e.questionId = true →
        (responseRowOf key now aid e).response =
          EncryptionService.encrypt key e.iv e.salt (Json.str e.response) ∧
        EncryptionService.decrypt key (responseRowOf key now aid e).response =
          .ok (Json.str e.response)) ∧
      (isOpenQuestion e.questionId = false →
        (responseRowOf key now aid e).response = e.response)) ∧
    (∃ view, getAssessment key (submitAssessment key now db aid entries).1 aid =
        .ok view ∧
      view.row.completedAt = some now ∧
      ∀ e ∈ entries, (e.questionId, Json.str e.response) ∈ view.responses) := by
  have hjwf : ∀ e ∈ entries, jsonWf (Json.str e.response) = true := by
    intro e he
    simp only [jsonWf, List.all_eq_true, decide_eq_true_eq]
    exact (hwf e he).2.2.2.2
  have hdecE : ∀ e ∈ entries, EncryptionService.decrypt key
      (EncryptionService.encrypt key e.iv e.salt (Json.str e.response)) =
        .ok (Json.str e.response) := fun e he =>
    decrypt_encrypt key e.iv e.salt (Json.str e.response)
      (hwf e he).1 (hwf e he).2.1 (hwf e he).2.2.1 (hwf e he).2.2.2.1 (hjwf e he)
  cases hres : insertAllResponses key now aid (setCompleted db aid now) entries with
  | error er =>
      exfalso
      unfold submitAssessment at hsucc
      rw [hres] at hsucc
      simp at hsucc
  | ok db2 =>
      have hsub : submitAssessment key now db aid entries = (db2, true) := by
        unfold submitAssessment
        rw [hres]
      have hshape := insertAllResponses_ok key now aid entries _ db2 hres
      rw [hsub]
      constructor
      · intro e he
        constructor
        · intro hop
          have henc : (responseRowOf key now aid e).response =
              EncryptionService.encrypt key e.iv e.salt (Json.str e.response) := by
            simp [responseRowOf, encodeResponseValue, hop]
          refine ⟨henc, ?_⟩
          rw [henc]
          exact hdecE e he
        · intro hflat
          simp [responseRowOf, encodeResponseValue, hflat]
      · have hass : db2.assessments = db.assessments.map (fun a => if a.id = aid
            then { a with completedAt := some now, updatedAt := now } else a) := by
          rw [hshape.1]
          rfl
        obtain ⟨a2, hf, hcomp⟩ := find_setCompleted db.assessments aid now hex
        unfold getAssessment
        rw [hass, hf]
        refine ⟨_, rfl, hcomp, ?_⟩
        intro e he
        have hmemr : responseRowOf key now aid e ∈ db2.responses := by
          rw [hshape.2]
          exact List.mem_append.mpr (Or.inr (List.mem_map.mpr ⟨e, he, rfl⟩))
        have hfil : responseRowOf key now aid e ∈ db2.responses.filter
            (fun rr => decide (rr.assessmentId = aid)) :=
          List.mem_filter.mpr ⟨hmemr, by simp [responseRowOf]⟩
        have hsrt : responseRowOf key now aid e ∈ List.insertionSort byQuestionId
            (db2.responses.filter (fun rr => decide (rr.assessmentId = aid))) :=
          (List.perm_insertionSort byQuestionId _).mem_iff.mpr hfil
        apply List.mem_map.mpr
        refine ⟨responseRowOf key now aid e, hsrt, ?_⟩
        have hq : (responseRowOf key now aid e).questionId = e.questionId := rfl
        by_cases hop : isOpenQuestion e.questionId = true
        · have hop2 : isOpenQuestion (responseRowOf key now aid e).questionId = true := by
            rw [hq]
            exact hop
          have henc : (responseRowOf key now aid e).response =
              EncryptionService.encrypt key e.iv e.salt (Json.str e.response) := by
            simp [responseRowOf, encodeResponseValue, hop]
          have hdec : EncryptionService.decrypt key
              (responseRowOf key now aid e).response = .ok (Json.str e.response) := by
            rw [henc]
            exact hdecE e he
          simp only [transformResponse, hop2, if_true, hdec, hq]
          simp [hop]
        · have hflat : isOpenQuestion e.questionId = false := by
            cases h2 : isOpenQuestion e.questionId
            · rfl
            · exact absurd h2 hop
          have hflat2 : isOpenQuestion (responseRowOf key now aid e).questionId = false := by
            rw [hq]
            exact hflat
          have hresp : (responseRowOf key now aid e).response = e.response := by
            simp [responseRowOf, encodeResponseValue, hflat]
          simp only [transformResponse, hflat2, Bool.false_eq_true, if_false, hq, hresp]
          simp [hflat]

theorem claim_C6_selective_encryption_witness :
    (∀ e ∈ wEntries,
      (isOpenQuestion e.questionId = true →
        (responseRowOf wKey 5 1 e).response =
          EncryptionService.encrypt wKey e.iv e.salt (Json.str e.response) ∧
        EncryptionService.decrypt wKey (responseRowOf wKey 5 1 e).response =
          .ok (Json.str e.response)) ∧
      (isOpenQuestion e.questionId = false →
        (responseRowOf wKey 5 1 e).response = e.response)) ∧
    (∃ view, getAssessment wKey (submitAssessment wKey 5 wDbSubmit 1 wEntries).1 1 =
        .ok view ∧
      view.row.completedAt = some 5 ∧
      ∀ e ∈ wEntries, (e.questionId, Json.str e.response) ∈ view.responses) :=
  claim_C6_selective_encryption wKey 5 wDbSubmit 1 wEntries (by decide) (by rfl)
    ⟨⟨1, [], [], [], [112, 101, 101, 114], 0, 0, none⟩, by simp [wDbSubmit], rfl⟩
    (by decide)

theorem utf8CharBytes_length_pos (c : Nat) : 1 ≤ (utf8CharBytes c).length := by
  unfold utf8CharBytes
  repeat' split
  all_goals simp

theorem utf8Len_ge (s : Str) : s.length ≤ utf8Len s := by
  induction s with
  | nil => simp [utf8Len, utf8Bytes]
  | cons c t ih =>
      have h1 := utf8CharBytes_length_pos c
      simp only [utf8Len, utf8Bytes, List.map_cons, List.flatten_cons,
        List.length_append, List.length_cons] at *
      omega

/-- C10 amended: whenever the environment key satisfies the Cipher Codec's
construction gate (its base64 decoding is exactly 32 bytes), `generateToken`
itself fails with an invalid-key-length error for every input — such a key
has at least 43 characters, so its UTF-8 form can never be the 32 bytes
`aes-256-cbc` requires.  Hence no `generateToken` output ever exists for the
codec to accept: the composed expressions of the claim error out instead of
`validateToken` returning `false`. -/
theorem claim_C10_generateToken_keylen (envKey iv data : Str)
    (h : (b64decode envKey).length = KEY_LENGTH) :
    generateToken envKey iv data = .error TokenError.invalidKeyLength := by
  have hlong : 43 ≤ envKey.length := b64decode_len32_imp_long envKey (by
    simpa [KEY_LENGTH] using h)
  have hge : envKey.length ≤ utf8Len envKey := utf8Len_ge envKey
  have hne : envKey ≠ [] := by
    intro h2
    rw [h2] at hlong
    simp at hlong
  unfold generateToken
  rw [if_neg hne, if_pos (by omega)]

theorem claim_C10_generateToken_keylen_witness :
    generateToken (List.replicate 43 65) wIv [120] =
      .error TokenError.invalidKeyLength :=
  claim_C10_generateToken_keylen (List.replicate 43 65) wIv [120] (by decide)

/-- C10 counterexample: under the very env key for which the codec's
constructor succeeds, `generateToken` throws (invalid key length) before
producing any token, so `validateToken(generateToken(s))` errors instead of
returning `false`: the claimed composition never yields `false`. -/
theorem claim_C10_counterexample :
    EncryptionService.mkKey (List.replicate 43 65) =
      Except.ok (List.replicate 32 0) ∧
    genThenValidate (List.replicate 43 65) wIv [120]
        (b64decode (List.replicate 43 65)) =
      Except.error TokenError.invalidKeyLength ∧
    Except.error TokenError.invalidKeyLength ≠
      (Except.ok false : Except TokenError Bool) :=
  ⟨by rfl, by rfl, by simp⟩
